import Mathlib

/-!
Verification of the `bigint` arbitrary-precision integer class
(`src/bigint.hpp`).  The class stores a sign flag and a little-endian
vector of decimal digits (`std::vector<int32_t>`, `BASE = 10`).

The shallow embedding below mirrors the C++ member functions.  C++
`WORD` values are `int32_t`; none of the analysed paths overflow 32
bits, so WORDs are modelled as unbounded `Int` with C++ truncated
division (`Int.tdiv`) and remainder (`Int.tmod`), which agree with the
C++ `/` and `%` operators on `int` operands.
-/

namespace BigintSpec

/-- `class bigint { bool sign; std::vector<WORD> val; }`.
`sign = true` means the value is negative; `val` is the magnitude,
least-significant entry first. -/
structure bigint where
  sign : Bool
  val : List Int
deriving DecidableEq

/-- `static constexpr WORD BASE = 10`. -/
def BASE : Int := 10

/-- The default constructor `bigint() : sign(false), val{0}`. -/
def bigint.zero : bigint := ⟨false, [0]⟩

/-- `bool is_zero() const { return val.size() == 1 && !val.at(0); }` -/
def bigint.is_zero (a : bigint) : Bool :=
  a.val.length == 1 && a.val.getD 0 0 == 0

/-- Loop of `operator+=(WORD b)`: `carry` starts at `b`; each step writes
`(ai + carry) % BASE` and continues with carry `(ai + carry) / 10`,
breaking as soon as the carry becomes zero; a remaining positive carry
is pushed as a new most-significant entry. -/
def addWordAux : Int → List Int → List Int
  | c, [] => if c > 0 then [c] else []
  | c, a :: rest =>
    let d := (a + c).tmod BASE
    let c' := (a + c).tdiv BASE
    if c' = 0 then d :: rest else d :: addWordAux c' rest

/-- `operator+=(WORD b)` (in-place single-WORD add; the sign is not
consulted). -/
def bigint.plusWordEq (a : bigint) (b : Int) : bigint :=
  ⟨a.sign, addWordAux b a.val⟩

/-- Loop of `operator*=(WORD b)`: each step writes
`(ai * b + carry) % BASE` with carry `(ai * b + carry) / BASE`; a
remaining positive carry is pushed as a single new entry. -/
def mulWordAux (b : Int) : Int → List Int → List Int
  | c, [] => if c > 0 then [c] else []
  | c, a :: rest => ((a * b + c).tmod BASE) :: mulWordAux b ((a * b + c).tdiv BASE) rest

/-- `operator*=(WORD b)`: returns unchanged if `is_zero()`; if `b == 0`
the value becomes the canonical zero (`val = {0}`, `sign = false`);
otherwise the digit loop runs. -/
def bigint.mulWordEq (a : bigint) (b : Int) : bigint :=
  if a.is_zero then a
  else if b = 0 then ⟨false, [0]⟩
  else ⟨a.sign, mulWordAux b 0 a.val⟩

/-- Loop of `val_plus` from index `offset` on: receiver digit `ai`,
operand digit `bi` (or `0` past the operand's end), carry propagation in
base 10; a nonzero final carry is pushed. -/
def valPlusAux : Int → List Int → List Int → List Int
  | c, [], _ => if c ≠ 0 then [c] else []
  | c, a :: rest, bs =>
    let s := a + bs.headD 0 + c
    (s.tmod BASE) :: valPlusAux (s.tdiv BASE) rest bs.tail

/-- `void val_plus(const bigint& b, std::size_t offset)`: the receiver's
vector is first grown (`resize`) to `b.val.size() + offset` if shorter,
then the positions below `offset` are kept and the loop adds `b`'s
digits shifted by `offset`. -/
def valPlusList (av bv : List Int) (offset : Nat) : List Int :=
  let av' := if av.length < bv.length + offset
             then av ++ List.replicate (bv.length + offset - av.length) 0
             else av
  av'.take offset ++ valPlusAux 0 (av'.drop offset) bv

/-- `val_plus` acting on a `bigint` (the C++ member mutates `val` only). -/
def bigint.val_plus (a b : bigint) (offset : Nat) : bigint :=
  ⟨a.sign, valPlusList a.val b.val offset⟩

/-- Loop of `val_monus`: borrow subtraction over the receiver's length,
`digit = (ai - bi - borrow + BASE) % BASE`, next borrow is `1` exactly
when `ai - bi - borrow < 0`. -/
def valMonusAux : Int → List Int → List Int → List Int
  | _, [], _ => []
  | c, a :: rest, bs =>
    let bi := bs.headD 0
    ((a - bi - c + BASE).tmod BASE) ::
      valMonusAux (if a - bi - c < 0 then 1 else 0) rest bs.tail

/-- `while (val.size() > 1 && !val.back()) val.pop_back();` — strips
most-significant zero entries but never below one entry. -/
def trimZeros (l : List Int) : List Int :=
  match l.reverse.dropWhile (fun d => d == 0) with
  | [] => if l.isEmpty then [] else [0]
  | r => r.reverse

/-- `void val_monus(const bigint& b)`: borrow subtraction followed by the
trailing-zero trim. -/
def bigint.val_monus (a b : bigint) : bigint :=
  ⟨a.sign, trimZeros (valMonusAux 0 a.val b.val)⟩

/-- First position where the reversed zipped digit vectors differ
(`for (auto [ai, bi] : zip(val, b.val) | reverse) if (ai != bi) ...`). -/
def firstNe : List (Int × Int) → Option (Int × Int)
  | [] => none
  | p :: ps => if p.1 ≠ p.2 then some p else firstNe ps

/-- `bool val_less(const bigint& b) const`: shorter vector is smaller,
longer is larger, equal lengths compare digitwise from the
most-significant end. -/
def bigint.val_less (a b : bigint) : Bool :=
  if a.val.length < b.val.length then true
  else if b.val.length < a.val.length then false
  else match firstNe ((a.val.zip b.val).reverse) with
    | some (x, y) => x < y
    | none => false

/-- `bool val_more(const bigint& b) const`, mirror image of `val_less`. -/
def bigint.val_more (a b : bigint) : Bool :=
  if a.val.length < b.val.length then false
  else if b.val.length < a.val.length then true
  else match firstNe ((a.val.zip b.val).reverse) with
    | some (x, y) => y < x
    | none => false

/-- `operator+=(const bigint& b)`: if the receiver is the canonical zero
it takes `b`'s sign and magnitude-adds; matching signs magnitude-add;
differing signs subtract the smaller magnitude from the larger (the
larger operand's sign wins) and clear the sign if the result is zero. -/
def bigint.plusEq (a b : bigint) : bigint :=
  if a.is_zero then
    (bigint.mk b.sign a.val).val_plus b 0
  else if a.sign == b.sign then
    a.val_plus b 0
  else
    let r := if a.val_less b then b.val_monus a else a.val_monus b
    if r.is_zero then ⟨false, r.val⟩ else r

/-- `operator+(const bigint& b) const`:
`bigint res; res += *this; res += b; return res;` -/
def bigint.add (a b : bigint) : bigint := (bigint.zero.plusEq a).plusEq b

/-- `operator+(WORD b) const`:
`bigint res; res += *this; res += b; return res;` (second `+=` is the
single-WORD overload). -/
def bigint.addWord (a : bigint) (b : Int) : bigint :=
  (bigint.zero.plusEq a).plusWordEq b

/-- `operator*(WORD b) const`:
`bigint res; res += *this; res *= b; return res;` -/
def bigint.mulWord (a : bigint) (b : Int) : bigint :=
  (bigint.zero.plusEq a).mulWordEq b

/-- Accumulation loop of `val_mult`:
`for (i...) s.val_plus(*this * b.val[i], i);` starting from
`bigint s(0)` (whose vector is `{0}`). -/
def valMultAcc (a : bigint) : Nat → List Int → List Int → List Int
  | _, acc, [] => acc
  | i, acc, bi :: rest => valMultAcc a (i + 1) (valPlusList acc (a.mulWord bi).val i) rest

/-- `void val_mult(const bigint& b)`: schoolbook partial-product
accumulation followed by the trailing-zero trim; the receiver's sign is
left untouched. -/
def bigint.val_mult (a b : bigint) : bigint :=
  ⟨a.sign, trimZeros (valMultAcc a 0 [0] b.val)⟩

/-- `operator*=(const bigint& b)`: `sign = (sign != b.sign);` then
`val_mult(b)`, then clear the sign if the result is zero. -/
def bigint.mulEq (a b : bigint) : bigint :=
  let m := (bigint.mk (a.sign != b.sign) a.val).val_mult b
  if m.is_zero then ⟨false, m.val⟩ else m

/-- `operator*(const bigint& b) const`:
`bigint res; res += *this; res *= b; return res;` -/
def bigint.mul (a b : bigint) : bigint := (bigint.zero.plusEq a).mulEq b

/-- `operator-() const`: copy via `res += *this`, then flip the sign
unless the copy is zero. -/
def bigint.neg (a : bigint) : bigint :=
  let r := bigint.zero.plusEq a
  if r.is_zero then r else ⟨!r.sign, r.val⟩

/-- `operator-=(const bigint& b)`: `*this += -b`. -/
def bigint.subEq (a b : bigint) : bigint := a.plusEq b.neg

/-- `operator-(const bigint& b) const`. -/
def bigint.sub (a b : bigint) : bigint := (bigint.zero.plusEq a).subEq b

/-- Prefix `operator++`: `*this += 1` (the single-WORD overload). -/
def bigint.inc (a : bigint) : bigint := a.plusWordEq 1

/-- `operator==`: structural comparison of sign flag and digit vector. -/
def bigint.beq (a b : bigint) : Bool := a.sign == b.sign && a.val == b.val

/-- `operator<`: negative < non-negative; equal signs delegate to the
magnitude comparison, inverted when both are negative. -/
def bigint.lt (a b : bigint) : Bool :=
  if a.sign && !b.sign then true
  else if !a.sign && b.sign then false
  else if !a.sign then a.val_less b
  else a.val_more b

/-- `operator>`, mirror image of `operator<`. -/
def bigint.gt (a b : bigint) : Bool :=
  if a.sign && !b.sign then false
  else if !a.sign && b.sign then true
  else if !a.sign then a.val_more b
  else a.val_less b

/-- `INT64_MIN`. -/
def I64_MIN : Int := -(2 ^ 63)

/-- `std::abs` on `int64_t`.  `abs(INT64_MIN)` is not representable
(undefined behaviour in C++); it is modelled as the two's-complement
wrap-around result `INT64_MIN` that the negation instruction produces. -/
def i64_abs (n : Int) : Int := if n = I64_MIN then n else (n.natAbs : Int)

/-- Digit-extraction loop of `bigint(int64_t)`:
`while (n > 0) { val.push_back(n % BASE); n /= BASE; }` (the C++ code
keeps `chunk = n % BASE` one step ahead, which is equivalent). -/
def decChunks (n : Int) : List Int :=
  if h : 0 < n then n.tmod BASE :: decChunks (n.tdiv BASE) else []
termination_by n.toNat
decreasing_by
  have h1 : n.tdiv BASE = n / BASE := Int.tdiv_eq_ediv (le_of_lt h) (by norm_num [BASE])
  have h2 : n / BASE < n := Int.ediv_lt_of_lt_mul (by norm_num [BASE]) (by simp only [BASE]; linarith)
  rw [h1]; omega

/-- `bigint(int64_t n)`: `sign = (n < 0)`; a single `0` digit is pushed
first when `n == 0`; then the digit loop runs on `std::abs(n)`. -/
def bigint.ofInt64 (n : Int) : bigint :=
  ⟨decide (n < 0), (if n = 0 then [0] else []) ++ decChunks (i64_abs n)⟩

/-- Digit value that `std::from_chars` assigns to one alphanumeric
character (`'0'`-`'9'` then case-insensitively `'a'`/`'A'` = 10 …). -/
def fromCharsVal (c : Char) : Int :=
  if c.isDigit then (c.toNat : Int) - (('0').toNat : Int)
  else (c.toUpper.toNat : Int) - (('A').toNat : Int) + 10

/-- Validation scan of `bigint(std::string_view, int base)`: each
character must be alphanumeric with `toupper(ch) - '0' < base`, or a
single `-` before any alphanumeric character; `none` models a thrown
`std::invalid_argument`.  Returns the accumulated `sign` member. -/
def scanChars (base : Int) : List Char → Bool → Bool → Option Bool
  | [], _, sign => some sign
  | c :: rest, alnum_flg, sign =>
    if c.isAlphanum then
      if base ≤ (c.toUpper.toNat : Int) - (('0').toNat : Int) then none
      else scanChars base rest true sign
    else if c = '-' && !alnum_flg && !sign then scanChars base rest alnum_flg true
    else none

/-- Conversion loop of the string constructor.  The window size is 1, so
the pre-loop remainder window is empty (`sv.size() % 1 == 0`) and each
step is `*this *= WORD(std::pow(base, 1)); *this += wnd;` where
`WORD(std::pow(base, 1)) = base` exactly for the bases in use. -/
def convChars (base : Int) : bigint → List Char → bigint
  | acc, [] => acc
  | acc, c :: rest => convChars base ((acc.mulWordEq base).plusWordEq (fromCharsVal c)) rest

/-- `bigint(std::string_view sv, int base)`: delegates to `bigint()`
(so the digit vector starts as `{0}`), validates, strips a recorded
leading `-`, short-circuits the single-character token `0` to the
canonical zero, and otherwise runs the conversion loop. -/
def bigint.ofString (s : List Char) (base : Int) : Option bigint :=
  match scanChars base s false false with
  | none => none
  | some sgn =>
    let s' := if sgn then s.tail else s
    if s' = ['0'] then some ⟨false, [0]⟩
    else some (convChars base ⟨sgn, [0]⟩ s')

/-- Decimal rendering of one `WORD` by `operator<<(std::ostream&, int)`. -/
def natDecChars (n : Nat) : List Char :=
  if h : n < 10 then [Char.ofNat (48 + n)]
  else natDecChars (n / 10) ++ [Char.ofNat (48 + n % 10)]
termination_by n
decreasing_by
  exact Nat.div_lt_self (by omega) (by omega)

/-- `operator<<` on a single (possibly negative, for ill-formed values)
`WORD`. -/
def intDecChars (i : Int) : List Char :=
  if i < 0 then '-' :: natDecChars i.natAbs else natDecChars i.toNat

/-- `operator<<(std::ostream&, const bigint&)`: an optional `-` followed
by the digit entries from most- to least-significant. -/
def bigint.render (a : bigint) : List Char :=
  (if a.sign then ['-'] else []) ++ (a.val.reverse.flatMap intDecChars)

/-- Mathematical value of a little-endian base-10 digit list. -/
def listVal : List Int → Int
  | [] => 0
  | d :: rest => d + BASE * listVal rest

/-- Mathematical (signed) value of a `bigint`. -/
def bigint.toInt (a : bigint) : Int :=
  if a.sign then -(listVal a.val) else listVal a.val

/-- Every digit entry lies in `[0, BASE)`. -/
def goodDigits (l : List Int) : Prop := ∀ d ∈ l, 0 ≤ d ∧ d < BASE

/-- Canonical digit vector: nonempty, and no most-significant zero entry
unless the vector is the single entry `{0}`. -/
def canonicalDigits (l : List Int) : Prop :=
  l ≠ [] ∧ (1 < l.length → l.getLast? ≠ some 0)

/-- Well-formed `bigint`: digit entries in range, canonical vector, and
no negative zero. -/
def bigint.WF (a : bigint) : Prop :=
  goodDigits a.val ∧ canonicalDigits a.val ∧ (listVal a.val = 0 → a.sign = false)

instance (l : List Int) : Decidable (goodDigits l) := by
  unfold goodDigits; infer_instance

instance (l : List Int) : Decidable (canonicalDigits l) := by
  unfold canonicalDigits; infer_instance

instance (a : bigint) : Decidable a.WF := by
  unfold bigint.WF; infer_instance

/-! ### Basic facts about digit lists -/

theorem listVal_append (l₁ l₂ : List Int) :
    listVal (l₁ ++ l₂) = listVal l₁ + BASE ^ l₁.length * listVal l₂ := by
  induction l₁ with
  | nil => simp [listVal]
  | cons d l ih => simp [listVal, ih, pow_succ]; ring

theorem listVal_zeros {l : List Int} (h : ∀ d ∈ l, d = 0) : listVal l = 0 := by
  induction l with
  | nil => rfl
  | cons d l ih =>
    simp only [listVal, h d (List.mem_cons_self d l),
      ih (fun x hx => h x (List.mem_cons_of_mem d hx))]
    ring

theorem goodDigits_cons {d : Int} {l : List Int} :
    goodDigits (d :: l) ↔ (0 ≤ d ∧ d < BASE) ∧ goodDigits l := by
  simp [goodDigits]

theorem goodDigits_append {l₁ l₂ : List Int} :
    goodDigits (l₁ ++ l₂) ↔ goodDigits l₁ ∧ goodDigits l₂ := by
  simp only [goodDigits, List.mem_append]
  constructor
  · exact fun h => ⟨fun d hd => h d (Or.inl hd), fun d hd => h d (Or.inr hd)⟩
  · rintro ⟨h₁, h₂⟩ d (hd | hd)
    · exact h₁ d hd
    · exact h₂ d hd

theorem goodDigits_of_sublist {l₁ l₂ : List Int} (hs : List.Sublist l₁ l₂)
    (h : goodDigits l₂) : goodDigits l₁ :=
  fun d hd => h d (hs.mem hd)

theorem listVal_nonneg {l : List Int} (h : goodDigits l) : 0 ≤ listVal l := by
  induction l with
  | nil => simp [listVal]
  | cons d rest ih =>
    rcases goodDigits_cons.mp h with ⟨hd, hrest⟩
    have := ih hrest
    simp only [listVal, BASE] at *
    linarith

theorem listVal_lt {l : List Int} (h : goodDigits l) :
    listVal l < BASE ^ l.length := by
  induction l with
  | nil => simp [listVal]
  | cons d rest ih =>
    rcases goodDigits_cons.mp h with ⟨hd, hrest⟩
    have h1 := ih hrest
    simp only [listVal, List.length_cons, pow_succ]
    have hb : (0:Int) < BASE := by norm_num [BASE]
    nlinarith

theorem listVal_getLast_le {l : List Int} (h : goodDigits l) {d : Int}
    (hd : l.getLast? = some d) :
    BASE ^ (l.length - 1) * d ≤ listVal l := by
  have hl : l.dropLast ++ [d] = l := List.dropLast_append_getLast? d hd
  have hlen : l.dropLast.length = l.length - 1 := List.length_dropLast l
  have hgood : goodDigits l.dropLast :=
    goodDigits_of_sublist (List.dropLast_sublist l) h
  have hv : listVal l = listVal l.dropLast + BASE ^ (l.length - 1) * (d + BASE * 0) := by
    conv_lhs => rw [← hl]
    rw [listVal_append, hlen]; rfl
  have := listVal_nonneg hgood
  simp only [mul_zero, add_zero] at hv
  linarith

theorem listVal_lower {l : List Int} (h : goodDigits l) {d : Int}
    (hd : l.getLast? = some d) (hdz : d ≠ 0) :
    BASE ^ (l.length - 1) ≤ listVal l := by
  have h1 := listVal_getLast_le h hd
  have h2 : 0 ≤ d ∧ d < BASE := h d (List.mem_of_mem_getLast? (Option.mem_def.mpr hd))
  have h3 : 1 ≤ d := by omega
  have h4 : (0:Int) < BASE ^ (l.length - 1) := by simp only [BASE]; positivity
  nlinarith

theorem canonical_lower {l : List Int} (hg : goodDigits l)
    (hc : canonicalDigits l) (hlen : 1 < l.length) :
    BASE ^ (l.length - 1) ≤ listVal l := by
  have hne : l ≠ [] := hc.1
  obtain ⟨d, hd⟩ := (List.getLast?_isSome (l := l)).mpr hne |> Option.isSome_iff_exists.mp
  have hdz : d ≠ 0 := by
    intro h0
    exact hc.2 hlen (h0 ▸ hd)
  exact listVal_lower hg hd hdz

theorem listVal_getLast_zero {l : List Int} (hg : goodDigits l)
    (hd : l.getLast? = some 0) : listVal l < BASE ^ (l.length - 1) := by
  have hl : l.dropLast ++ [(0:Int)] = l := List.dropLast_append_getLast? 0 hd
  have hlen : l.dropLast.length = l.length - 1 := List.length_dropLast l
  have hgood : goodDigits l.dropLast :=
    goodDigits_of_sublist (List.dropLast_sublist l) hg
  have hv : listVal l = listVal l.dropLast := by
    conv_lhs => rw [← hl]
    rw [listVal_append]
    simp [listVal]
  rw [hv, ← hlen]
  exact listVal_lt hgood

theorem canonical_of_lower {l : List Int} (hg : goodDigits l) (hne : l ≠ [])
    (hlow : 1 < l.length → BASE ^ (l.length - 1) ≤ listVal l) :
    canonicalDigits l := by
  refine ⟨hne, fun hlen hlast => ?_⟩
  have := listVal_getLast_zero hg hlast
  have := hlow hlen
  linarith

theorem listVal_eq_zero_iff {l : List Int} (hg : goodDigits l)
    (hc : canonicalDigits l) : listVal l = 0 ↔ l = [0] := by
  constructor
  · intro h0
    match l, hc with
    | [], hc => exact absurd rfl hc.1
    | [d], hc =>
      rcases goodDigits_cons.mp hg with ⟨hd, -⟩
      have : d + BASE * 0 = 0 := by simpa [listVal] using h0
      simp only [listVal] at h0
      have : d = 0 := by simp [listVal, BASE] at h0 ⊢; linarith [h0]
      simp [this]
    | d :: e :: rest, hc =>
      have hlen : 1 < (d :: e :: rest).length := by simp
      have := canonical_lower hg hc hlen
      have hpos : (0:Int) < BASE ^ ((d :: e :: rest).length - 1) := by simp only [BASE]; positivity
      omega
  · intro h; subst h; simp [listVal]

theorem is_zero_iff {a : bigint} : a.is_zero = true ↔ a.val = [0] := by
  unfold bigint.is_zero
  match a, a.val with
  | a, [] => simp
  | a, [d] => simp [List.getD]
  | a, d :: e :: rest => simp

/-! ### Truncated division helpers -/

theorem tmod_tdiv_id (x : Int) : x.tmod BASE + BASE * x.tdiv BASE = x :=
  Int.tmod_add_tdiv x BASE

theorem digit_bounds {x : Int} (h0 : 0 ≤ x) :
    0 ≤ x.tmod BASE ∧ x.tmod BASE < BASE ∧ 0 ≤ x.tdiv BASE := by
  have hB : (0:Int) < BASE := by norm_num [BASE]
  have hmod : x.tmod BASE = x % BASE := Int.tmod_eq_emod h0 (le_of_lt hB)
  have hdiv : x.tdiv BASE = x / BASE := Int.tdiv_eq_ediv h0 (le_of_lt hB)
  refine ⟨?_, ?_, ?_⟩
  · rw [hmod]; exact Int.emod_nonneg x (ne_of_gt hB)
  · rw [hmod]; exact Int.emod_lt_of_pos x hB
  · rw [hdiv]; exact Int.ediv_nonneg h0 (le_of_lt hB)

theorem tdiv_lt {x k : Int} (h0 : 0 ≤ x) (h : x < k * BASE) :
    x.tdiv BASE < k := by
  have hB : (0:Int) < BASE := by norm_num [BASE]
  have hdiv : x.tdiv BASE = x / BASE := Int.tdiv_eq_ediv h0 (le_of_lt hB)
  rw [hdiv]
  exact Int.ediv_lt_of_lt_mul hB h

/-! ### `val_plus` -/

theorem valPlusAux_val (c : Int) (as bs : List Int) (h : bs.length ≤ as.length) :
    listVal (valPlusAux c as bs) = c + listVal as + listVal bs := by
  induction as generalizing c bs with
  | nil =>
    have hbs : bs = [] := List.length_eq_zero.mp (Nat.le_zero.mp h)
    subst hbs
    by_cases hc : c = 0 <;> simp [valPlusAux, hc, listVal]
  | cons a rest ih =>
    have htail : bs.tail.length ≤ rest.length := by
      cases bs <;> simp at h ⊢ <;> omega
    have hid := tmod_tdiv_id (a + bs.headD 0 + c)
    simp only [valPlusAux, listVal]
    rw [ih _ _ htail]
    cases bs with
    | nil =>
      simp only [List.headD, List.tail, listVal] at hid ⊢
      linarith
    | cons b bt =>
      simp only [List.headD, List.tail, listVal] at hid ⊢
      linarith

theorem valPlusAux_len (c : Int) (as bs : List Int) :
    (valPlusAux c as bs).length = as.length ∨
      ((valPlusAux c as bs).length = as.length + 1 ∧
        (valPlusAux c as bs).getLast? ≠ some 0) := by
  induction as generalizing c bs with
  | nil =>
    by_cases hc : c = 0
    · left; simp [valPlusAux, hc]
    · right; simp [valPlusAux, hc]
  | cons a rest ih =>
    simp only [valPlusAux]
    rcases ih ((a + bs.headD 0 + c).tdiv BASE) bs.tail with h | ⟨h1, h2⟩
    · left; simp only [List.length_cons, h]
    · right
      refine ⟨by simp only [List.length_cons, h1], ?_⟩
      cases hr : valPlusAux ((a + bs.headD 0 + c).tdiv BASE) rest bs.tail with
      | nil => rw [hr] at h1; simp at h1
      | cons x xs =>
        rw [hr] at h2
        rw [List.getLast?_cons_cons]
        exact h2

theorem valPlusAux_good (c : Int) (as bs : List Int) (hc0 : 0 ≤ c) (hc1 : c ≤ 1)
    (ha : goodDigits as) (hb : goodDigits bs) : goodDigits (valPlusAux c as bs) := by
  induction as generalizing c bs with
  | nil =>
    by_cases hc : c = 0
    · simp [valPlusAux, hc, goodDigits]
    · have hcv : c = 1 := by omega
      simp [valPlusAux, hcv, goodDigits, BASE]
  | cons a rest ih =>
    rcases goodDigits_cons.mp ha with ⟨hd, hrest⟩
    have hb0 : 0 ≤ bs.headD 0 ∧ bs.headD 0 < BASE := by
      cases bs with
      | nil => simp [BASE]
      | cons b bt => exact hb b (List.mem_cons_self b bt)
    have hbt : goodDigits bs.tail := by
      cases bs with
      | nil => simpa using hb
      | cons b bt => exact fun d hdm => hb d (List.mem_cons_of_mem b hdm)
    have hs0 : 0 ≤ a + bs.headD 0 + c := by linarith [hd.1, hb0.1]
    have hs1 : a + bs.headD 0 + c < 2 * BASE := by linarith [hd.2, hb0.2]
    obtain ⟨hm0, hm1, hq0⟩ := digit_bounds hs0
    have hq1 : (a + bs.headD 0 + c).tdiv BASE ≤ 1 := by
      have := tdiv_lt hs0 (by linarith : a + bs.headD 0 + c < 2 * BASE)
      omega
    simp only [valPlusAux]
    exact goodDigits_cons.mpr ⟨⟨hm0, hm1⟩, ih _ bs.tail hq0 hq1 hrest hbt⟩

theorem valPlusList_val (av bv : List Int) (k : Nat) :
    listVal (valPlusList av bv k) = listVal av + BASE ^ k * listVal bv := by
  unfold valPlusList
  set av' := if av.length < bv.length + k
             then av ++ List.replicate (bv.length + k - av.length) 0
             else av with hav'
  have hval : listVal av' = listVal av := by
    rw [hav']
    split
    · rw [listVal_append, listVal_zeros (l := List.replicate _ 0)
        (fun d hd => (List.eq_of_mem_replicate hd))]
      ring
    · rfl
  have hlen : bv.length + k ≤ av'.length := by
    rw [hav']
    split
    · simp; omega
    · omega
  have htake : (av'.take k).length = k := by
    rw [List.length_take]; omega
  have hdrop : bv.length ≤ (av'.drop k).length := by
    rw [List.length_drop]; omega
  rw [listVal_append, valPlusAux_val 0 _ _ hdrop, htake]
  have hsplit : listVal av' = listVal (av'.take k) + BASE ^ k * listVal (av'.drop k) := by
    conv_lhs => rw [← List.take_append_drop k av']
    rw [listVal_append, htake]
  rw [← hval, hsplit]
  ring

theorem valPlusList_good (av bv : List Int) (k : Nat)
    (ha : goodDigits av) (hb : goodDigits bv) :
    goodDigits (valPlusList av bv k) := by
  unfold valPlusList
  set av' := if av.length < bv.length + k
             then av ++ List.replicate (bv.length + k - av.length) 0
             else av with hav'
  have hgood : goodDigits av' := by
    rw [hav']
    split
    · refine goodDigits_append.mpr ⟨ha, fun d hd => ?_⟩
      rw [List.eq_of_mem_replicate hd]
      norm_num [BASE]
    · exact ha
  refine goodDigits_append.mpr ⟨?_, ?_⟩
  · exact goodDigits_of_sublist (List.take_sublist k av') hgood
  · exact valPlusAux_good 0 _ _ le_rfl zero_le_one
      (goodDigits_of_sublist (List.drop_sublist k av') hgood) hb

/-! ### `val_monus` and the trailing-zero trim -/

theorem valMonusAux_spec (c : Int) (as bs : List Int) (hc : c = 0 ∨ c = 1)
    (hga : goodDigits as) (hgb : goodDigits bs) (hlen : bs.length ≤ as.length)
    (hge : listVal bs + c ≤ listVal as) :
    listVal (valMonusAux c as bs) = listVal as - listVal bs - c ∧
      goodDigits (valMonusAux c as bs) ∧
      (valMonusAux c as bs).length = as.length := by
  induction as generalizing c bs with
  | nil =>
    have hbs : bs = [] := List.length_eq_zero.mp (Nat.le_zero.mp hlen)
    subst hbs
    simp only [listVal] at hge
    rcases hc with h | h
    · subst h
      refine ⟨by simp [valMonusAux, listVal], by simp [valMonusAux, goodDigits], by simp [valMonusAux]⟩
    · subst h; omega
  | cons a rest ih =>
    have hb0 : 0 ≤ bs.headD 0 ∧ bs.headD 0 < BASE := by
      cases bs with
      | nil => simp [BASE]
      | cons b bt => exact hgb b (List.mem_cons_self b bt)
    have hbt : goodDigits bs.tail := by
      cases bs with
      | nil => simpa using hgb
      | cons b bt => exact fun d hdm => hgb d (List.mem_cons_of_mem b hdm)
    have hbsval : listVal bs = bs.headD 0 + BASE * listVal bs.tail := by
      cases bs <;> simp [listVal]
    have htlen : bs.tail.length ≤ rest.length := by
      cases bs <;> simp at hlen ⊢ <;> omega
    rcases goodDigits_cons.mp hga with ⟨ha, hrest⟩
    have hB : (0:Int) < BASE := by norm_num [BASE]
    have hxlow : -BASE ≤ a - bs.headD 0 - c := by rcases hc with h | h <;> subst h <;> linarith [ha.1, hb0.2]
    have hxhigh : a - bs.headD 0 - c < BASE := by rcases hc with h | h <;> subst h <;> linarith [ha.2, hb0.1]
    set x := a - bs.headD 0 - c with hxdef
    set c' : Int := if x < 0 then 1 else 0 with hcpdef
    have hcp01 : c' = 0 ∨ c' = 1 := by rw [hcpdef]; split <;> simp
    have hd : (x + BASE).tmod BASE = x + BASE * c' := by
      have h0 : 0 ≤ x + BASE := by linarith
      rw [Int.tmod_eq_emod h0 (le_of_lt hB), hcpdef]
      split
      · rw [Int.emod_eq_of_lt (by linarith) (by linarith)]; ring
      · rename_i hpos
        push_neg at hpos
        have h1 : (x + BASE) % BASE = x % BASE := by
          have := Int.add_mul_emod_self_left (a := x) (b := BASE) (c := 1)
          simpa using this
        rw [h1, Int.emod_eq_of_lt hpos hxhigh]; ring
    have hdg : 0 ≤ x + BASE * c' ∧ x + BASE * c' < BASE := by
      rw [hcpdef]; split <;> constructor <;> linarith
    -- recursive value inequality: listVal bs.tail + c' ≤ listVal rest
    have hA' := listVal_nonneg hrest
    have hB' := listVal_nonneg hbt
    have hrec : listVal bs.tail + c' ≤ listVal rest := by
      have hc01 : 0 ≤ c ∧ c ≤ 1 := by rcases hc with h | h <;> simp [h]
      rw [hbsval] at hge
      simp only [listVal] at hge
      simp only [BASE] at hge hb0 ha
      rw [hcpdef, hxdef]
      split <;> omega
    obtain ⟨ihv, ihg, ihl⟩ := ih c' bs.tail hcp01 hrest hbt htlen hrec
    simp only [valMonusAux]
    refine ⟨?_, ?_, ?_⟩
    · simp only [listVal, hd, ihv, hbsval]
      rw [hcpdef]
      split <;> ring
    · exact goodDigits_cons.mpr ⟨hd ▸ hdg, ihg⟩
    · simp only [List.length_cons, ihl]

theorem trimZeros_spec (l : List Int) (hne : l ≠ []) (hg : goodDigits l) :
    listVal (trimZeros l) = listVal l ∧ goodDigits (trimZeros l) ∧
      canonicalDigits (trimZeros l) := by
  unfold trimZeros
  cases hr : l.reverse.dropWhile (fun d => d == 0) with
  | nil =>
    have htw : l.reverse.takeWhile (fun d => d == 0) = l.reverse := by
      have := List.takeWhile_append_dropWhile (p := fun d => d == 0) (l := l.reverse)
      rw [hr] at this
      simpa using this
    have hz : ∀ d ∈ l, d = 0 := by
      intro d hd
      have hdm : d ∈ l.reverse.takeWhile (fun d => d == 0) := by
        rw [htw]; exact List.mem_reverse.mpr hd
      simpa using List.mem_takeWhile_imp hdm
    have hle : l.isEmpty = false := by simpa using hne
    simp only [hle, Bool.false_eq_true, if_false]
    refine ⟨by simp [listVal_zeros hz, listVal], ?_, ?_⟩
    · intro d hd
      simp at hd
      simp [hd, BASE]
    · exact ⟨by simp, by simp⟩
  | cons h t =>
    have hsplit : l.reverse.takeWhile (fun d => d == 0) ++ (h :: t) = l.reverse := by
      rw [← hr]
      exact List.takeWhile_append_dropWhile (fun d => d == 0) l.reverse
    have hl : l = (h :: t).reverse ++ (l.reverse.takeWhile (fun d => d == 0)).reverse := by
      have h2 := congrArg List.reverse hsplit
      rw [List.reverse_append, List.reverse_reverse] at h2
      exact h2.symm
    have hz : ∀ d ∈ (l.reverse.takeWhile (fun d => d == 0)).reverse, d = 0 := by
      intro d hd
      simpa using List.mem_takeWhile_imp (List.mem_reverse.mp hd)
    have hval : listVal ((h :: t).reverse) = listVal l := by
      conv_rhs => rw [hl]
      rw [listVal_append, listVal_zeros hz]
      ring
    have hmem : ∀ d ∈ (h :: t).reverse, d ∈ l := by
      intro d hd
      rw [hl]
      exact List.mem_append_left _ hd
    have hh : h ≠ 0 := by
      have hw : l.reverse.dropWhile (fun d => d == 0) ≠ [] := by rw [hr]; simp
      have := List.head_dropWhile_not (fun d => d == 0) l.reverse hw
      rw [List.head_eq_iff_head?_eq_some hw |>.mpr ?hh] at this
      case hh => rw [hr]; rfl
      · simpa using this
    refine ⟨hval, fun d hd => hg d (hmem d hd), ?_, ?_⟩
    · simp
    · intro _
      rw [List.getLast?_reverse]
      simp [hh]

/-! ### Magnitude comparison -/

/-- Value of a digit list read most-significant first (proof device for
the comparison loops, which walk the vectors from the back). -/
def msbVal : List Int → Int
  | [] => 0
  | d :: rest => d * BASE ^ rest.length + msbVal rest

theorem msbVal_append_singleton (l : List Int) (d : Int) :
    msbVal (l ++ [d]) = BASE * msbVal l + d := by
  induction l with
  | nil => simp [msbVal]
  | cons x xs ih =>
    simp only [List.cons_append, msbVal, ih, List.append_eq, List.length_append,
      List.length_cons, List.length_nil, pow_succ]
    ring

theorem listVal_eq_msbVal_reverse (l : List Int) : listVal l = msbVal l.reverse := by
  induction l with
  | nil => rfl
  | cons a rest ih =>
    simp only [listVal, List.reverse_cons, msbVal_append_singleton, ih]
    ring

theorem msbVal_eq_listVal_reverse (l : List Int) : msbVal l = listVal l.reverse := by
  have h := listVal_eq_msbVal_reverse l.reverse
  rw [List.reverse_reverse] at h
  exact h.symm

theorem msbVal_nonneg {l : List Int} (h : goodDigits l) : 0 ≤ msbVal l := by
  rw [msbVal_eq_listVal_reverse]
  exact listVal_nonneg (fun d hd => h d (List.mem_reverse.mp hd))

theorem msbVal_lt {l : List Int} (h : goodDigits l) : msbVal l < BASE ^ l.length := by
  rw [msbVal_eq_listVal_reverse]
  have := listVal_lt (l := l.reverse) (fun d hd => h d (List.mem_reverse.mp hd))
  simpa using this

theorem digit_block_lt {a b A Bv P : Int} (hP : 0 < P) (hA : 0 ≤ A) (hA' : A < P)
    (hB : 0 ≤ Bv) (hB' : Bv < P) :
    a * P + A < b * P + Bv ↔ (a < b ∨ (a = b ∧ A < Bv)) := by
  constructor
  · intro h
    rcases lt_trichotomy a b with h1 | h1 | h1
    · exact Or.inl h1
    · exact Or.inr ⟨h1, by rw [h1] at h; linarith⟩
    · exfalso
      have hm := mul_le_mul_of_nonneg_right (show b + 1 ≤ a by omega) (le_of_lt hP)
      ring_nf at hm
      nlinarith
  · rintro (h1 | ⟨h1, h2⟩)
    · have hm := mul_le_mul_of_nonneg_right (show a + 1 ≤ b by omega) (le_of_lt hP)
      nlinarith
    · rw [h1]; linarith

theorem firstNe_none {L : List (Int × Int)} (h : firstNe L = none) :
    ∀ p ∈ L, p.1 = p.2 := by
  induction L with
  | nil => intro p hp; cases hp
  | cons q qs ih =>
    intro p hp
    by_cases hq : q.1 = q.2
    · rcases List.mem_cons.mp hp with h1 | h1
      · rw [h1]; exact hq
      · refine ih ?_ p h1
        simpa [firstNe, hq] using h
    · simp [firstNe, hq] at h

theorem eq_of_zip_fst_eq_snd (l₁ l₂ : List Int) (hlen : l₁.length = l₂.length)
    (h : ∀ p ∈ l₁.zip l₂, p.1 = p.2) : l₁ = l₂ := by
  induction l₁ generalizing l₂ with
  | nil => cases l₂ with
    | nil => rfl
    | cons y ys => simp at hlen
  | cons x xs ih =>
    cases l₂ with
    | nil => simp at hlen
    | cons y ys =>
      have h1 : x = y := h (x, y) (by simp [List.zip_cons_cons])
      have h2 : xs = ys := by
        refine ih ys (by simpa using hlen) ?_
        intro p hp
        exact h p (by simp [List.zip_cons_cons, hp])
      rw [h1, h2]

theorem firstNe_some_lt (ras rbs : List Int) (hlen : ras.length = rbs.length)
    (hga : goodDigits ras) (hgb : goodDigits rbs) (x y : Int)
    (hfn : firstNe (ras.zip rbs) = some (x, y)) :
    (x < y ↔ msbVal ras < msbVal rbs) := by
  induction ras generalizing rbs with
  | nil =>
    have : rbs = [] := by cases rbs <;> simp_all
    subst this
    simp [firstNe] at hfn
  | cons a as ih =>
    cases rbs with
    | nil => simp at hlen
    | cons b bs =>
      have hlen' : as.length = bs.length := by simpa using hlen
      rcases goodDigits_cons.mp hga with ⟨hda, hga'⟩
      rcases goodDigits_cons.mp hgb with ⟨hdb, hgb'⟩
      have hP : (0:Int) < BASE ^ as.length := by simp only [BASE]; positivity
      have hAb : msbVal as < BASE ^ as.length := msbVal_lt hga'
      have hBb : msbVal bs < BASE ^ as.length := by
        have := msbVal_lt hgb'
        rwa [← hlen'] at this
      have hA0 := msbVal_nonneg hga'
      have hB0 := msbVal_nonneg hgb'
      by_cases hab : a = b
      · subst hab
        rw [List.zip_cons_cons,
          show firstNe ((a, a) :: (as.zip bs)) = firstNe (as.zip bs) by simp [firstNe]] at hfn
        have hiff := ih bs hlen' hga' hgb' hfn
        simp only [msbVal, ← hlen']
        rw [hiff]
        constructor
        · intro h; linarith
        · intro h; linarith
      · have hfn' : some (a, b) = some (x, y) := by
          rw [List.zip_cons_cons,
            show firstNe ((a, b) :: (as.zip bs)) = some (a, b) by simp [firstNe, hab]] at hfn
          exact hfn
        have hpq := Option.some.inj hfn'
        have hx : x = a := (congrArg Prod.fst hpq).symm
        have hy : y = b := (congrArg Prod.snd hpq).symm
        subst hx
        subst hy
        simp only [msbVal, ← hlen']
        rw [digit_block_lt hP hA0 hAb hB0 hBb]
        constructor
        · exact fun h => Or.inl h
        · rintro (h | ⟨h1, -⟩)
          · exact h
          · exact absurd h1 hab

theorem zip_reverse_eq (l₁ l₂ : List Int) (h : l₁.length = l₂.length) :
    (l₁.zip l₂).reverse = l₁.reverse.zip l₂.reverse := by
  induction l₁ generalizing l₂ with
  | nil => cases l₂ with
    | nil => rfl
    | cons y ys => simp at h
  | cons x xs ih =>
    cases l₂ with
    | nil => simp at h
    | cons y ys =>
      have h' : xs.length = ys.length := by simpa using h
      simp only [List.zip_cons_cons, List.reverse_cons]
      rw [ih ys h', List.zip_append (by simp [h'])]
      simp

theorem firstNe_map_swap (L : List (Int × Int)) :
    firstNe (L.map Prod.swap) = (firstNe L).map Prod.swap := by
  induction L with
  | nil => rfl
  | cons q qs ih =>
    simp only [List.map_cons, firstNe, Prod.fst_swap, Prod.snd_swap]
    by_cases hq : q.1 = q.2
    · rw [if_neg (not_not_intro hq.symm), if_neg (not_not_intro hq), ih]
    · rw [if_pos (fun hh => hq hh.symm), if_pos hq]
      rfl

theorem val_less_iff {a b : bigint} (ha : a.WF) (hb : b.WF) :
    a.val_less b = decide (listVal a.val < listVal b.val) := by
  have hga := ha.1
  have hgb := hb.1
  have hapos : 0 < a.val.length := List.length_pos.mpr ha.2.1.1
  have hbpos : 0 < b.val.length := List.length_pos.mpr hb.2.1.1
  unfold bigint.val_less
  rcases Nat.lt_trichotomy a.val.length b.val.length with h | h | h
  · rw [if_pos h]
    have hva := listVal_lt hga
    have hvb : BASE ^ (b.val.length - 1) ≤ listVal b.val :=
      canonical_lower hgb hb.2.1 (by omega)
    have hpow : BASE ^ a.val.length ≤ BASE ^ (b.val.length - 1) :=
      pow_le_pow_right₀ (by norm_num [BASE]) (by omega)
    symm
    simp only [decide_eq_true_eq]
    linarith
  · rw [if_neg (by omega), if_neg (by omega)]
    cases hfn : firstNe ((a.val.zip b.val).reverse) with
    | none =>
      have heq : a.val.reverse = b.val.reverse := by
        refine eq_of_zip_fst_eq_snd _ _ (by simp [h]) ?_
        rw [← zip_reverse_eq _ _ h]
        exact firstNe_none hfn
      have heq' : a.val = b.val := by
        have h2 := congrArg List.reverse heq
        simpa using h2
      simp [heq']
    | some p =>
      obtain ⟨x, y⟩ := p
      rw [zip_reverse_eq _ _ h] at hfn
      have hiff := firstNe_some_lt a.val.reverse b.val.reverse (by simp [h])
        (fun d hd => hga d (List.mem_reverse.mp hd))
        (fun d hd => hgb d (List.mem_reverse.mp hd)) x y hfn
      rw [← listVal_eq_msbVal_reverse, ← listVal_eq_msbVal_reverse] at hiff
      show decide (x < y) = decide (listVal a.val < listVal b.val)
      simp only [decide_eq_decide]
      exact hiff
  · rw [if_neg (by omega), if_pos h]
    have hvb := listVal_lt hgb
    have hva : BASE ^ (a.val.length - 1) ≤ listVal a.val :=
      canonical_lower hga ha.2.1 (by omega)
    have hpow : BASE ^ b.val.length ≤ BASE ^ (a.val.length - 1) :=
      pow_le_pow_right₀ (by norm_num [BASE]) (by omega)
    symm
    simp only [decide_eq_false_iff_not, not_lt]
    linarith

theorem val_more_iff {a b : bigint} (ha : a.WF) (hb : b.WF) :
    a.val_more b = decide (listVal b.val < listVal a.val) := by
  have hga := ha.1
  have hgb := hb.1
  have hapos : 0 < a.val.length := List.length_pos.mpr ha.2.1.1
  have hbpos : 0 < b.val.length := List.length_pos.mpr hb.2.1.1
  unfold bigint.val_more
  rcases Nat.lt_trichotomy a.val.length b.val.length with h | h | h
  · rw [if_pos h]
    have hva := listVal_lt hga
    have hvb : BASE ^ (b.val.length - 1) ≤ listVal b.val :=
      canonical_lower hgb hb.2.1 (by omega)
    have hpow : BASE ^ a.val.length ≤ BASE ^ (b.val.length - 1) :=
      pow_le_pow_right₀ (by norm_num [BASE]) (by omega)
    symm
    simp only [decide_eq_false_iff_not, not_lt]
    linarith
  · rw [if_neg (by omega), if_neg (by omega)]
    cases hfn : firstNe ((a.val.zip b.val).reverse) with
    | none =>
      have heq : a.val.reverse = b.val.reverse := by
        refine eq_of_zip_fst_eq_snd _ _ (by simp [h]) ?_
        rw [← zip_reverse_eq _ _ h]
        exact firstNe_none hfn
      have heq' : a.val = b.val := by
        have h2 := congrArg List.reverse heq
        simpa using h2
      simp [heq']
    | some p =>
      obtain ⟨x, y⟩ := p
      rw [zip_reverse_eq _ _ h] at hfn
      have hswap : firstNe (b.val.reverse.zip a.val.reverse) = some (y, x) := by
        rw [show b.val.reverse.zip a.val.reverse
              = (a.val.reverse.zip b.val.reverse).map Prod.swap from
            (List.zip_swap _ _).symm]
        rw [firstNe_map_swap, hfn]
        rfl
      have hiff2 := firstNe_some_lt b.val.reverse a.val.reverse (by simp [h])
        (fun d hd => hgb d (List.mem_reverse.mp hd))
        (fun d hd => hga d (List.mem_reverse.mp hd)) y x hswap
      rw [← listVal_eq_msbVal_reverse, ← listVal_eq_msbVal_reverse] at hiff2
      show decide (y < x) = decide (listVal b.val < listVal a.val)
      simp only [decide_eq_decide]
      exact hiff2
  · rw [if_neg (by omega), if_pos h]
    have hvb := listVal_lt hgb
    have hva : BASE ^ (a.val.length - 1) ≤ listVal a.val :=
      canonical_lower hga ha.2.1 (by omega)
    have hpow : BASE ^ b.val.length ≤ BASE ^ (a.val.length - 1) :=
      pow_le_pow_right₀ (by norm_num [BASE]) (by omega)
    symm
    simp only [decide_eq_true_eq]
    linarith

/-! ### Canonical uniqueness, `is_zero`, and the copy idiom -/

theorem good_unique_of_length {l₁ l₂ : List Int} (hg₁ : goodDigits l₁)
    (hg₂ : goodDigits l₂) (hlen : l₁.length = l₂.length)
    (hv : listVal l₁ = listVal l₂) : l₁ = l₂ := by
  induction l₁ generalizing l₂ with
  | nil => cases l₂ with
    | nil => rfl
    | cons y ys => simp at hlen
  | cons d₁ r₁ ih =>
    cases l₂ with
    | nil => simp at hlen
    | cons d₂ r₂ =>
      rcases goodDigits_cons.mp hg₁ with ⟨hd₁, hr₁⟩
      rcases goodDigits_cons.mp hg₂ with ⟨hd₂, hr₂⟩
      simp only [listVal] at hv
      have hr₁n := listVal_nonneg hr₁
      have hr₂n := listVal_nonneg hr₂
      have hdeq : d₁ = d₂ := by simp only [BASE] at hv hd₁ hd₂; omega
      have hteq : listVal r₁ = listVal r₂ := by
        rw [hdeq] at hv
        have hB : (10:Int) ≠ 0 := by norm_num
        simp only [BASE] at hv
        omega
      rw [hdeq, ih hr₁ hr₂ (by simpa using hlen) hteq]

theorem canonical_unique {l₁ l₂ : List Int} (hg₁ : goodDigits l₁) (hg₂ : goodDigits l₂)
    (hc₁ : canonicalDigits l₁) (hc₂ : canonicalDigits l₂)
    (hv : listVal l₁ = listVal l₂) : l₁ = l₂ := by
  have hp₁ : 0 < l₁.length := List.length_pos.mpr hc₁.1
  have hp₂ : 0 < l₂.length := List.length_pos.mpr hc₂.1
  have hlen : l₁.length = l₂.length := by
    rcases Nat.lt_trichotomy l₁.length l₂.length with h | h | h
    · exfalso
      have h1 := listVal_lt hg₁
      have h2 := canonical_lower hg₂ hc₂ (by omega)
      have h3 : BASE ^ l₁.length ≤ BASE ^ (l₂.length - 1) :=
        pow_le_pow_right₀ (by norm_num [BASE]) (by omega)
      linarith
    · exact h
    · exfalso
      have h1 := listVal_lt hg₂
      have h2 := canonical_lower hg₁ hc₁ (by omega)
      have h3 : BASE ^ l₂.length ≤ BASE ^ (l₁.length - 1) :=
        pow_le_pow_right₀ (by norm_num [BASE]) (by omega)
      linarith
  exact good_unique_of_length hg₁ hg₂ hlen hv

/-! ### The copy idiom `bigint res; res += *this;` -/

theorem valPlusAux_zero_receiver (bv : List Int) (hb : goodDigits bv) :
    valPlusAux 0 (List.replicate bv.length 0) bv = bv := by
  induction bv with
  | nil => simp [valPlusAux]
  | cons b bt ih =>
    rcases goodDigits_cons.mp hb with ⟨hd, ht⟩
    rw [List.length_cons, List.replicate_succ]
    simp only [valPlusAux, List.headD_cons, List.tail_cons]
    have h1 : (0 + b + 0).tmod BASE = b := by
      simp only [zero_add, add_zero]
      rw [Int.tmod_eq_emod hd.1 (by norm_num [BASE])]
      exact Int.emod_eq_of_lt hd.1 hd.2
    have h2 : (0 + b + 0).tdiv BASE = 0 := by
      simp only [zero_add, add_zero]
      exact Int.tdiv_eq_zero_of_lt hd.1 hd.2
    rw [h1, h2, ih ht]

theorem valPlusList_zero_left (bv : List Int) (hb : goodDigits bv) (hne : bv ≠ []) :
    valPlusList [0] bv 0 = bv := by
  have hlen : 1 ≤ bv.length := by
    cases bv with
    | nil => exact absurd rfl hne
    | cons x xs => simp
  unfold valPlusList
  simp only [List.take_zero, List.drop_zero, List.nil_append]
  have hav : (if [(0:Int)].length < bv.length + 0
      then [(0:Int)] ++ List.replicate (bv.length + 0 - [(0:Int)].length) 0
      else [(0:Int)]) = List.replicate bv.length 0 := by
    split
    · rename_i hlt
      simp only [List.length_cons, List.length_nil] at hlt ⊢
      rw [show [(0:Int)] = List.replicate 1 0 from rfl, ← List.replicate_add]
      congr 1
      omega
    · rename_i hge
      simp only [List.length_cons, List.length_nil] at hge
      have h1 : bv.length = 1 := by omega
      rw [h1]
      rfl
  rw [hav]
  exact valPlusAux_zero_receiver bv hb

theorem zero_plusEq (a : bigint) (hg : goodDigits a.val) (hne : a.val ≠ []) :
    bigint.zero.plusEq a = a := by
  obtain ⟨s, v⟩ := a
  unfold bigint.plusEq
  rw [if_pos (show bigint.zero.is_zero = true from rfl)]
  unfold bigint.val_plus
  show bigint.mk s (valPlusList bigint.zero.val v 0) = bigint.mk s v
  rw [show bigint.zero.val = [(0:Int)] from rfl, valPlusList_zero_left v hg hne]

/-! ### Canonicity of `val_plus` -/

theorem length_le_of_val_le {l₁ l₂ : List Int} (hg₁ : goodDigits l₁)
    (hg₂ : goodDigits l₂) (hc₁ : canonicalDigits l₁) (hc₂ : canonicalDigits l₂)
    (h : listVal l₁ ≤ listVal l₂) : l₁.length ≤ l₂.length := by
  by_contra hlt
  push_neg at hlt
  have h1 := listVal_lt hg₂
  have h2 : BASE ^ (l₁.length - 1) ≤ listVal l₁ :=
    canonical_lower hg₁ hc₁ (by
      have := List.length_pos.mpr hc₂.1
      omega)
  have h3 : BASE ^ l₂.length ≤ BASE ^ (l₁.length - 1) :=
    pow_le_pow_right₀ (by norm_num [BASE]) (by omega)
  linarith

theorem valPlusList_canonical (av bv : List Int) (ha : goodDigits av)
    (hb : goodDigits bv) (ca : canonicalDigits av) (cb : canonicalDigits bv) :
    canonicalDigits (valPlusList av bv 0) := by
  have hapos : 0 < av.length := List.length_pos.mpr ca.1
  have hbpos : 0 < bv.length := List.length_pos.mpr cb.1
  have hval := valPlusList_val av bv 0
  simp only [pow_zero, one_mul] at hval
  have hgood := valPlusList_good av bv 0 ha hb
  have han := listVal_nonneg ha
  have hbn := listVal_nonneg hb
  unfold valPlusList at hval hgood ⊢
  simp only [List.take_zero, List.drop_zero, List.nil_append] at hval hgood ⊢
  set av' := if av.length < bv.length + 0
             then av ++ List.replicate (bv.length + 0 - av.length) 0
             else av with hav'
  have hlen' : av'.length = av.length ∨ av'.length = bv.length := by
    rw [hav']
    split
    · rename_i hlt
      right
      simp only [List.length_append, List.length_replicate]
      omega
    · exact Or.inl rfl
  have hmax : av.length ≤ av'.length ∧ bv.length ≤ av'.length := by
    rw [hav']
    split
    · rename_i hlt
      simp only [List.length_append, List.length_replicate]
      omega
    · rename_i hge
      simp only [not_lt] at hge
      omega
  rcases valPlusAux_len 0 av' bv with hL | ⟨hL, hgl⟩
  · refine canonical_of_lower hgood ?_ ?_
    · intro hz
      rw [hz] at hL
      simp at hL
      omega
    · intro h1
      rw [hL] at h1
      rw [hL, hval]
      rcases hlen' with he | he
      · have hca : BASE ^ (av.length - 1) ≤ listVal av :=
          canonical_lower ha ca (by omega)
        have hpow : BASE ^ (av'.length - 1) ≤ BASE ^ (av.length - 1) :=
          pow_le_pow_right₀ (by norm_num [BASE]) (by omega)
        linarith
      · have hcb : BASE ^ (bv.length - 1) ≤ listVal bv :=
          canonical_lower hb cb (by omega)
        have hpow : BASE ^ (av'.length - 1) ≤ BASE ^ (bv.length - 1) :=
          pow_le_pow_right₀ (by norm_num [BASE]) (by omega)
        linarith
  · refine ⟨?_, fun _ => hgl⟩
    intro hz
    rw [hz] at hL
    simp at hL

/-! ### Signed addition -/

theorem toInt_mk (s : Bool) (v : List Int) :
    (bigint.mk s v).toInt = if s then -(listVal v) else listVal v := rfl

theorem WF_mk (s : Bool) (v : List Int) :
    (bigint.mk s v).WF ↔
      goodDigits v ∧ canonicalDigits v ∧ (listVal v = 0 → s = false) := Iff.rfl

theorem plusEq_spec (a b : bigint) (ha : a.WF) (hb : b.WF) :
    (a.plusEq b).toInt = a.toInt + b.toInt ∧ (a.plusEq b).WF := by
  obtain ⟨hga, hca, hza⟩ := ha
  obtain ⟨hgb, hcb, hzb⟩ := hb
  have hane : a.val ≠ [] := hca.1
  have hbne : b.val ≠ [] := hcb.1
  have hbpos : 0 < b.val.length := List.length_pos.mpr hbne
  have hapos : 0 < a.val.length := List.length_pos.mpr hane
  have hAn : 0 ≤ listVal a.val := listVal_nonneg hga
  have hBn : 0 ≤ listVal b.val := listVal_nonneg hgb
  simp only [bigint.plusEq, bigint.val_plus, bigint.val_monus]
  split_ifs with hz hs hlt hrz hrz'
  · -- receiver is the canonical zero
    have hav : a.val = [0] := is_zero_iff.mp hz
    have haval : listVal a.val = 0 := by rw [hav]; simp [listVal]
    have hatoInt : a.toInt = 0 := by
      unfold bigint.toInt
      rw [haval]
      split <;> simp
    have hvv : valPlusList a.val b.val 0 = b.val := by
      rw [hav]
      exact valPlusList_zero_left b.val hgb hbne
    rw [hvv, hatoInt, zero_add]
    exact ⟨rfl, hgb, hcb, hzb⟩
  · -- matching signs
    have hseq : a.sign = b.sign := by simpa using hs
    have hvalnz : listVal a.val ≠ 0 := fun h0 =>
      hz (is_zero_iff.mpr ((listVal_eq_zero_iff hga hca).mp h0))
    have hApos : 0 < listVal a.val := lt_of_le_of_ne hAn (Ne.symm hvalnz)
    have hval := valPlusList_val a.val b.val 0
    simp only [pow_zero, one_mul] at hval
    have hgood := valPlusList_good a.val b.val 0 hga hgb
    have hcanon := valPlusList_canonical a.val b.val hga hgb hca hcb
    constructor
    · rw [toInt_mk]
      unfold bigint.toInt
      rw [hval, ← hseq]
      cases a.sign <;> simp <;> ring
    · refine ⟨hgood, hcanon, fun h0 => ?_⟩
      rw [hval] at h0
      exfalso
      linarith
  · -- differing signs, |a| < |b|, monus result zero: impossible
    exfalso
    have hlelt : listVal a.val < listVal b.val := by
      rw [val_less_iff ⟨hga, hca, hza⟩ ⟨hgb, hcb, hzb⟩] at hlt
      simpa using hlt
    have hlen : a.val.length ≤ b.val.length :=
      length_le_of_val_le hga hgb hca hcb (le_of_lt hlelt)
    obtain ⟨hmv, hmg, hml⟩ := valMonusAux_spec 0 b.val a.val (Or.inl rfl) hgb hga hlen
      (by linarith)
    have hmne : valMonusAux 0 b.val a.val ≠ [] := by
      intro hznil
      rw [hznil] at hml
      simp at hml
      omega
    obtain ⟨htv, htg, htc⟩ := trimZeros_spec _ hmne hmg
    have htrim0 : trimZeros (valMonusAux 0 b.val a.val) = [0] := is_zero_iff.mp hrz
    rw [htrim0] at htv
    simp [listVal] at htv
    rw [hmv] at htv
    linarith
  · -- differing signs, |a| < |b|, nonzero result
    have hsne : a.sign ≠ b.sign := by simpa using hs
    have hlelt : listVal a.val < listVal b.val := by
      rw [val_less_iff ⟨hga, hca, hza⟩ ⟨hgb, hcb, hzb⟩] at hlt
      simpa using hlt
    have hlen : a.val.length ≤ b.val.length :=
      length_le_of_val_le hga hgb hca hcb (le_of_lt hlelt)
    obtain ⟨hmv, hmg, hml⟩ := valMonusAux_spec 0 b.val a.val (Or.inl rfl) hgb hga hlen
      (by linarith)
    have hmne : valMonusAux 0 b.val a.val ≠ [] := by
      intro hznil
      rw [hznil] at hml
      simp at hml
      omega
    obtain ⟨htv, htg, htc⟩ := trimZeros_spec _ hmne hmg
    have hrv : listVal (trimZeros (valMonusAux 0 b.val a.val))
        = listVal b.val - listVal a.val := by rw [htv, hmv]; ring
    constructor
    · rw [toInt_mk]
      unfold bigint.toInt
      rw [hrv]
      cases hbs : b.sign
      · have has : a.sign = true := by
          cases hsa : a.sign
          · rw [hsa, hbs] at hsne; exact absurd rfl hsne
          · rfl
        rw [has]
        simp only [if_true, if_false, Bool.false_eq_true]
        ring
      · have has : a.sign = false := by
          cases hsa : a.sign
          · rfl
          · rw [hsa, hbs] at hsne; exact absurd rfl hsne
        rw [has]
        simp only [if_true, if_false, Bool.false_eq_true]
        ring
    · refine ⟨htg, htc, fun h0 => ?_⟩
      rw [hrv] at h0
      exfalso
      linarith
  · -- differing signs, |b| ≤ |a|, result zero (i.e. |a| = |b|)
    have hsne : a.sign ≠ b.sign := by simpa using hs
    have hlege : listVal b.val ≤ listVal a.val := by
      rw [val_less_iff ⟨hga, hca, hza⟩ ⟨hgb, hcb, hzb⟩] at hlt
      simpa using hlt
    have hlen : b.val.length ≤ a.val.length :=
      length_le_of_val_le hgb hga hcb hca hlege
    obtain ⟨hmv, hmg, hml⟩ := valMonusAux_spec 0 a.val b.val (Or.inl rfl) hga hgb hlen
      (by linarith)
    have hmne : valMonusAux 0 a.val b.val ≠ [] := by
      intro hznil
      rw [hznil] at hml
      simp at hml
      omega
    obtain ⟨htv, htg, htc⟩ := trimZeros_spec _ hmne hmg
    have htrim0 : trimZeros (valMonusAux 0 a.val b.val) = [0] := is_zero_iff.mp hrz'
    have heq : listVal a.val = listVal b.val := by
      rw [htrim0] at htv
      simp [listVal] at htv
      rw [hmv] at htv
      linarith
    constructor
    · rw [toInt_mk, htrim0]
      unfold bigint.toInt
      simp only [listVal, Bool.false_eq_true, if_false]
      cases hbs : b.sign
      · have has : a.sign = true := by
          cases hsa : a.sign
          · rw [hsa, hbs] at hsne; exact absurd rfl hsne
          · rfl
        rw [has]
        simp only [if_true, Bool.false_eq_true, if_false]
        rw [heq]
        ring
      · have has : a.sign = false := by
          cases hsa : a.sign
          · rfl
          · rw [hsa, hbs] at hsne; exact absurd rfl hsne
        rw [has]
        simp only [if_true, Bool.false_eq_true, if_false]
        rw [heq]
        ring
    · rw [htrim0]
      refine ⟨?_, ⟨by simp, by simp⟩, fun _ => rfl⟩
      intro d hd
      simp at hd
      simp [hd, BASE]
  · -- differing signs, |b| ≤ |a|, nonzero result
    have hsne : a.sign ≠ b.sign := by simpa using hs
    have hlege : listVal b.val ≤ listVal a.val := by
      rw [val_less_iff ⟨hga, hca, hza⟩ ⟨hgb, hcb, hzb⟩] at hlt
      simpa using hlt
    have hlen : b.val.length ≤ a.val.length :=
      length_le_of_val_le hgb hga hcb hca hlege
    obtain ⟨hmv, hmg, hml⟩ := valMonusAux_spec 0 a.val b.val (Or.inl rfl) hga hgb hlen
      (by linarith)
    have hmne : valMonusAux 0 a.val b.val ≠ [] := by
      intro hznil
      rw [hznil] at hml
      simp at hml
      omega
    obtain ⟨htv, htg, htc⟩ := trimZeros_spec _ hmne hmg
    have hrv : listVal (trimZeros (valMonusAux 0 a.val b.val))
        = listVal a.val - listVal b.val := by rw [htv, hmv]; ring
    have hne0 : listVal a.val - listVal b.val ≠ 0 := by
      intro h0
      apply hrz'
      apply is_zero_iff.mpr
      apply (listVal_eq_zero_iff htg htc).mp
      rw [hrv, h0]
    constructor
    · rw [toInt_mk]
      unfold bigint.toInt
      rw [hrv]
      cases hbs : b.sign
      · have has : a.sign = true := by
          cases hsa : a.sign
          · rw [hsa, hbs] at hsne; exact absurd rfl hsne
          · rfl
        rw [has]
        simp only [if_true, Bool.false_eq_true, if_false]
        ring
      · have has : a.sign = false := by
          cases hsa : a.sign
          · rfl
          · rw [hsa, hbs] at hsne; exact absurd rfl hsne
        rw [has]
        simp only [if_true, Bool.false_eq_true, if_false]
        ring
    · refine ⟨htg, htc, fun h0 => ?_⟩
      rw [hrv] at h0
      exact absurd h0 hne0

theorem add_spec (a b : bigint) (ha : a.WF) (hb : b.WF) :
    (a.add b).toInt = a.toInt + b.toInt ∧ (a.add b).WF := by
  unfold bigint.add
  rw [zero_plusEq a ha.1 ha.2.1.1]
  exact plusEq_spec a b ha hb

theorem neg_spec (a : bigint) (ha : a.WF) :
    a.neg.toInt = -a.toInt ∧ a.neg.WF := by
  unfold bigint.neg
  rw [zero_plusEq a ha.1 ha.2.1.1]
  by_cases hz : a.is_zero
  · rw [if_pos hz]
    have hav : a.val = [0] := is_zero_iff.mp hz
    have haval : listVal a.val = 0 := by rw [hav]; simp [listVal]
    have h0 : a.toInt = 0 := by
      unfold bigint.toInt
      rw [haval]
      split <;> simp
    rw [h0]
    exact ⟨by norm_num, ha⟩
  · rw [if_neg hz]
    have hvalnz : listVal a.val ≠ 0 := fun h0 =>
      hz (is_zero_iff.mpr ((listVal_eq_zero_iff ha.1 ha.2.1).mp h0))
    constructor
    · rw [toInt_mk]
      unfold bigint.toInt
      cases hsa : a.sign <;> simp
    · exact ⟨ha.1, ha.2.1, fun h0 => absurd h0 hvalnz⟩

/-! ### Signed comparisons -/

theorem lt_iff (a b : bigint) (ha : a.WF) (hb : b.WF) :
    a.lt b = decide (a.toInt < b.toInt) := by
  have hAn : 0 ≤ listVal a.val := listVal_nonneg ha.1
  have hBn : 0 ≤ listVal b.val := listVal_nonneg hb.1
  unfold bigint.lt bigint.toInt
  cases hsa : a.sign <;> cases hsb : b.sign
  · show a.val_less b = decide (listVal a.val < listVal b.val)
    exact val_less_iff ha hb
  · show false = decide (listVal a.val < -listVal b.val)
    symm
    simp only [decide_eq_false_iff_not, not_lt]
    linarith
  · show true = decide (-listVal a.val < listVal b.val)
    have hAnz : listVal a.val ≠ 0 := by
      intro h0
      have h2 := ha.2.2 h0
      rw [hsa] at h2
      exact absurd h2 (by simp)
    symm
    simp only [decide_eq_true_eq]
    have h3 : 0 < listVal a.val := lt_of_le_of_ne hAn (Ne.symm hAnz)
    linarith
  · show a.val_more b = decide (-listVal a.val < -listVal b.val)
    rw [val_more_iff ha hb]
    simp only [decide_eq_decide]
    omega

theorem gt_iff (a b : bigint) (ha : a.WF) (hb : b.WF) :
    a.gt b = decide (b.toInt < a.toInt) := by
  have hAn : 0 ≤ listVal a.val := listVal_nonneg ha.1
  have hBn : 0 ≤ listVal b.val := listVal_nonneg hb.1
  unfold bigint.gt bigint.toInt
  cases hsa : a.sign <;> cases hsb : b.sign
  · show a.val_more b = decide (listVal b.val < listVal a.val)
    exact val_more_iff ha hb
  · show true = decide (-listVal b.val < listVal a.val)
    have hBnz : listVal b.val ≠ 0 := by
      intro h0
      have h2 := hb.2.2 h0
      rw [hsb] at h2
      exact absurd h2 (by simp)
    symm
    simp only [decide_eq_true_eq]
    have h3 : 0 < listVal b.val := lt_of_le_of_ne hBn (Ne.symm hBnz)
    linarith
  · show false = decide (listVal b.val < -listVal a.val)
    symm
    simp only [decide_eq_false_iff_not, not_lt]
    linarith
  · show a.val_less b = decide (-listVal b.val < -listVal a.val)
    rw [val_less_iff ha hb]
    simp only [decide_eq_decide]
    omega

theorem beq_iff (a b : bigint) : a.beq b = true ↔ a = b := by
  unfold bigint.beq
  constructor
  · intro h
    simp only [Bool.and_eq_true, beq_iff_eq] at h
    obtain ⟨h1, h2⟩ := h
    cases a
    cases b
    simp_all
  · intro h
    subst h
    simp

theorem toInt_inj (a b : bigint) (ha : a.WF) (hb : b.WF)
    (h : a.toInt = b.toInt) : a = b := by
  have hAn : 0 ≤ listVal a.val := listVal_nonneg ha.1
  have hBn : 0 ≤ listVal b.val := listVal_nonneg hb.1
  have hveq : listVal a.val = listVal b.val ∧ a.sign = b.sign := by
    unfold bigint.toInt at h
    cases hsa : a.sign <;> cases hsb : b.sign <;> rw [hsa, hsb] at h <;> simp at h
    · exact ⟨h, rfl⟩
    · exfalso
      have hB0 : listVal b.val = 0 := by omega
      have h2 := hb.2.2 hB0
      rw [hsb] at h2
      exact absurd h2 (by simp)
    · exfalso
      have hA0 : listVal a.val = 0 := by omega
      have h2 := ha.2.2 hA0
      rw [hsa] at h2
      exact absurd h2 (by simp)
    · exact ⟨by omega, rfl⟩
  have hv := canonical_unique ha.1 hb.1 ha.2.1 hb.2.1 hveq.1
  have hsgn := hveq.2
  cases a
  cases b
  simp_all

/-- C8: For every pair of well-formed bigint values `a` and `b`, exactly
one of `a < b`, `a == b`, `a > b` evaluates to true. -/
theorem c8_ordering_totality (a b : bigint) (ha : a.WF) (hb : b.WF) :
    (a.lt b = true ∧ a.beq b = false ∧ a.gt b = false) ∨
    (a.lt b = false ∧ a.beq b = true ∧ a.gt b = false) ∨
    (a.lt b = false ∧ a.beq b = false ∧ a.gt b = true) := by
  rw [lt_iff a b ha hb, gt_iff a b ha hb]
  rcases lt_trichotomy a.toInt b.toInt with h | h | h
  · left
    have hne : a ≠ b := fun he => absurd (he ▸ h) (lt_irrefl _)
    refine ⟨by simp [h], ?_, by simp; linarith⟩
    cases hbeq : a.beq b
    · rfl
    · exact absurd ((beq_iff a b).mp hbeq) hne
  · right; left
    have heq : a = b := toInt_inj a b ha hb h
    refine ⟨by simp [h], (beq_iff a b).mpr heq, by simp [h]⟩
  · right; right
    have hne : a ≠ b := fun he => absurd (he ▸ h) (lt_irrefl _)
    refine ⟨by simp; linarith, ?_, by simp [h]⟩
    cases hbeq : a.beq b
    · rfl
    · exact absurd ((beq_iff a b).mp hbeq) hne

/-- Witness for C8 at `a = 5`, `b = -7`. -/
theorem c8_witness :
    ((bigint.mk false [5]).lt ⟨true, [7]⟩ = true ∧
        (bigint.mk false [5]).beq ⟨true, [7]⟩ = false ∧
        (bigint.mk false [5]).gt ⟨true, [7]⟩ = false) ∨
    ((bigint.mk false [5]).lt ⟨true, [7]⟩ = false ∧
        (bigint.mk false [5]).beq ⟨true, [7]⟩ = true ∧
        (bigint.mk false [5]).gt ⟨true, [7]⟩ = false) ∨
    ((bigint.mk false [5]).lt ⟨true, [7]⟩ = false ∧
        (bigint.mk false [5]).beq ⟨true, [7]⟩ = false ∧
        (bigint.mk false [5]).gt ⟨true, [7]⟩ = true) :=
  c8_ordering_totality ⟨false, [5]⟩ ⟨true, [7]⟩ (by decide) (by decide)

/-- C1: For every pair of well-formed bigint values `a` and `b`,
`operator+` returns a bigint whose mathematical value is the integer sum
of the operands' values, and the result is well-formed (digit entries in
range, canonical vector, and `sign = false` whenever the resulting
magnitude is zero) — the sign composition of `operator+=` is exactly the
case split of `bigint.plusEq`. -/
theorem c1_signed_addition (a b : bigint) (ha : a.WF) (hb : b.WF) :
    (a.add b).toInt = a.toInt + b.toInt ∧
      (a.add b).WF ∧
      (listVal (a.add b).val = 0 → (a.add b).sign = false) := by
  obtain ⟨h1, h2⟩ := add_spec a b ha hb
  exact ⟨h1, h2, h2.2.2⟩

/-- Witness for C1 at `a = 5`, `b = -7` (the sum is `-2`). -/
theorem c1_witness :
    ((bigint.mk false [5]).add ⟨true, [7]⟩).toInt =
        (bigint.mk false [5]).toInt + (bigint.mk true [7]).toInt ∧
      ((bigint.mk false [5]).add ⟨true, [7]⟩).WF ∧
      (listVal ((bigint.mk false [5]).add ⟨true, [7]⟩).val = 0 →
        ((bigint.mk false [5]).add ⟨true, [7]⟩).sign = false) :=
  c1_signed_addition ⟨false, [5]⟩ ⟨true, [7]⟩ (by decide) (by decide)

/-! ### Single-WORD addition -/

theorem addWordAux_val (c : Int) (as : List Int) (hc : 0 ≤ c) (ha : goodDigits as) :
    listVal (addWordAux c as) = c + listVal as := by
  induction as generalizing c with
  | nil =>
    by_cases h : c > 0 <;> simp [addWordAux, h, listVal] <;> omega
  | cons a rest ih =>
    rcases goodDigits_cons.mp ha with ⟨hd, hrest⟩
    have hs0 : 0 ≤ a + c := by linarith [hd.1]
    obtain ⟨hm0, hm1, hq0⟩ := digit_bounds hs0
    have hid := tmod_tdiv_id (a + c)
    simp only [addWordAux]
    split
    · rename_i h0
      rw [h0] at hid
      simp only [listVal]
      linarith
    · simp only [listVal]
      rw [ih _ hq0 hrest]
      linarith

theorem addWordAux_len (c : Int) (as : List Int) (hc : 0 ≤ c) (ha : goodDigits as) :
    (addWordAux c as).length = as.length ∨
      ((addWordAux c as).length = as.length + 1 ∧
        (addWordAux c as).getLast? ≠ some 0) := by
  induction as generalizing c with
  | nil =>
    by_cases h : c > 0
    · right
      simp only [addWordAux, if_pos h]
      exact ⟨rfl, by simp; omega⟩
    · left
      simp [addWordAux, h]
  | cons a rest ih =>
    rcases goodDigits_cons.mp ha with ⟨hd, hrest⟩
    have hs0 : 0 ≤ a + c := by linarith [hd.1]
    obtain ⟨hm0, hm1, hq0⟩ := digit_bounds hs0
    simp only [addWordAux]
    split
    · left; simp
    · rcases ih ((a + c).tdiv BASE) hq0 hrest with h | ⟨h1, h2⟩
      · left; simp only [List.length_cons, h]
      · right
        refine ⟨by simp only [List.length_cons, h1], ?_⟩
        cases hr : addWordAux ((a + c).tdiv BASE) rest with
        | nil => rw [hr] at h1; simp at h1
        | cons x xs =>
          rw [hr] at h2
          rw [List.getLast?_cons_cons]
          exact h2

theorem addWordAux_good (c : Int) (as : List Int) (hc0 : 0 ≤ c) (hc9 : c < BASE)
    (ha : goodDigits as) : goodDigits (addWordAux c as) := by
  induction as generalizing c with
  | nil =>
    by_cases h : c > 0
    · simp only [addWordAux, if_pos h]
      exact goodDigits_cons.mpr ⟨⟨hc0, hc9⟩, fun d hd => absurd hd (List.not_mem_nil d)⟩
    · simp only [addWordAux, if_neg h]
      exact fun d hd => absurd hd (List.not_mem_nil d)
  | cons a rest ih =>
    rcases goodDigits_cons.mp ha with ⟨hd, hrest⟩
    have hs0 : 0 ≤ a + c := by linarith [hd.1]
    obtain ⟨hm0, hm1, hq0⟩ := digit_bounds hs0
    have hq9 : (a + c).tdiv BASE < BASE := by
      have h2 : a + c < 2 * BASE := by linarith [hd.2]
      have h3 := tdiv_lt hs0 (by linarith : a + c < 2 * BASE)
      simp only [BASE] at h3 ⊢
      omega
    simp only [addWordAux]
    split
    · exact goodDigits_cons.mpr ⟨⟨hm0, hm1⟩, hrest⟩
    · exact goodDigits_cons.mpr ⟨⟨hm0, hm1⟩, ih _ hq0 hq9 hrest⟩

theorem plusWordEq_spec (a : bigint) (b : Int) (ha : a.WF) (hb0 : 0 ≤ b)
    (hb9 : b < BASE) :
    listVal (a.plusWordEq b).val = b + listVal a.val ∧
      goodDigits (a.plusWordEq b).val ∧ canonicalDigits (a.plusWordEq b).val ∧
      (a.plusWordEq b).sign = a.sign := by
  obtain ⟨hga, hca, hza⟩ := ha
  have hval := addWordAux_val b a.val hb0 hga
  have hgood := addWordAux_good b a.val hb0 hb9 hga
  simp only [bigint.plusWordEq]
  refine ⟨hval, hgood, ?_, by trivial⟩
  rcases addWordAux_len b a.val hb0 hga with h | ⟨h1, h2⟩
  · refine canonical_of_lower hgood ?_ ?_
    · intro hz
      rw [hz] at h
      simp at h
      exact hca.1 (List.length_eq_zero.mp h.symm)
    · intro hgt
      rw [h] at hgt ⊢
      have hlow : BASE ^ (a.val.length - 1) ≤ listVal a.val :=
        canonical_lower hga hca hgt
      rw [hval]
      linarith
  · refine ⟨?_, fun _ => h2⟩
    intro hz
    rw [hz] at h1
    simp at h1

/-! ### `bigint(int64_t)` -/

theorem decChunks_nonpos {n : Int} (h : ¬ 0 < n) : decChunks n = [] := by
  unfold decChunks
  rw [dif_neg h]

theorem decChunks_pos {n : Int} (h : 0 < n) :
    decChunks n = n.tmod BASE :: decChunks (n.tdiv BASE) := by
  conv_lhs => unfold decChunks
  rw [dif_pos h]

theorem I64_MIN_val : I64_MIN = -9223372036854775808 := by norm_num [I64_MIN]

theorem ofInt64_small (b : Int) (h0 : 0 ≤ b) (h9 : b ≤ 9) :
    bigint.ofInt64 b = ⟨false, [b]⟩ := by
  have hni : b ≠ I64_MIN := by rw [I64_MIN_val]; omega
  unfold bigint.ofInt64 i64_abs
  rw [if_neg hni]
  have hsgn : decide (b < 0) = false := decide_eq_false (by omega)
  by_cases hb : b = 0
  · subst hb
    rw [if_pos rfl, decChunks_nonpos (by norm_num)]
    simp [hsgn]
  · rw [if_neg hb]
    have hbpos : 0 < b := by omega
    have habs : ((b.natAbs : Int)) = b := Int.natAbs_of_nonneg h0
    rw [habs, decChunks_pos hbpos]
    have hmod : b.tmod BASE = b := by
      rw [Int.tmod_eq_emod h0 (by norm_num [BASE])]
      exact Int.emod_eq_of_lt h0 (by simp only [BASE]; omega)
    have hdiv : b.tdiv BASE = 0 :=
      Int.tdiv_eq_zero_of_lt h0 (by simp only [BASE]; omega)
    rw [hmod, hdiv, decChunks_nonpos (by norm_num), hsgn]
    simp

/-- C9 counterexample: at `a = bigint(-5)` (well-formed) and `b = 3`,
the single-WORD overload gives `-5 + 3 == -8`, while full bigint
addition gives `-2`; the prefix increment likewise maps `-5` to `-6`
instead of `-4`. -/
theorem c9_counterexample :
    ((bigint.mk true [5]).addWord 3).beq
        ((bigint.mk true [5]).add (bigint.ofInt64 3)) = false ∧
      (bigint.mk true [5]).inc.beq
        ((bigint.mk true [5]).add (bigint.ofInt64 1)) = false := by
  rw [ofInt64_small 3 (by norm_num) (by norm_num),
    ofInt64_small 1 (by norm_num) (by norm_num)]
  constructor <;> rfl

/-- Helper: a single digit in `[0, BASE)` is a well-formed bigint. -/
theorem WF_single (d : Int) (h0 : 0 ≤ d) (h9 : d < BASE) :
    (bigint.mk false [d]).WF := by
  refine ⟨?_, ⟨by simp, by simp⟩, fun _ => rfl⟩
  intro x hx
  simp at hx
  subst hx
  exact ⟨h0, h9⟩

/-- C9 (amended): for every well-formed *non-negative* bigint `a` and
digit-sized constant `0 ≤ b ≤ 9`, the single-WORD addition overload
agrees with signed bigint addition (`a + b == a + bigint(b)`), and the
prefix increment satisfies `++a == a + bigint(1)`.  (For negative `a`
the overload adds `b` to the magnitude and the agreement fails, see the
counterexample.) -/
theorem c9_amended (a : bigint) (b : Int) (ha : a.WF) (hs : a.sign = false)
    (hb0 : 0 ≤ b) (hb9 : b ≤ 9) :
    (a.addWord b).beq (a.add (bigint.ofInt64 b)) = true ∧
      a.inc.beq (a.add (bigint.ofInt64 1)) = true := by
  have hb9' : b < BASE := by simp only [BASE]; omega
  have hlhs : ∀ (w : Int), 0 ≤ w → w < BASE →
      (a.plusWordEq w).toInt = a.toInt + w ∧ (a.plusWordEq w).WF := by
    intro w hw0 hw9
    obtain ⟨hv, hg, hc, hsgn⟩ := plusWordEq_spec a w ha hw0 hw9
    have hs' : (a.plusWordEq w).sign = false := by rw [hsgn, hs]
    constructor
    · unfold bigint.toInt
      rw [hs', hs, if_neg (by simp), if_neg (by simp), hv]
      ring
    · exact ⟨hg, hc, fun _ => hs'⟩
  have hrhs : ∀ (w : Int), 0 ≤ w → w < BASE →
      (a.add (bigint.ofInt64 w)).toInt = a.toInt + w ∧
        (a.add (bigint.ofInt64 w)).WF := by
    intro w hw0 hw9
    rw [ofInt64_small w hw0 (by simp only [BASE] at hw9; omega)]
    obtain ⟨hv, hwf⟩ := add_spec a ⟨false, [w]⟩ ha (WF_single w hw0 hw9)
    refine ⟨?_, hwf⟩
    rw [hv]
    congr 1
    unfold bigint.toInt
    simp [listVal]
  constructor
  · have h1 := hlhs b hb0 hb9'
    have h2 := hrhs b hb0 hb9'
    have heq : a.addWord b = a.add (bigint.ofInt64 b) := by
      have hcopy : a.addWord b = a.plusWordEq b := by
        unfold bigint.addWord
        rw [zero_plusEq a ha.1 ha.2.1.1]
      rw [hcopy]
      exact toInt_inj _ _ h1.2 h2.2 (by rw [h1.1, h2.1])
    rw [heq]
    exact (beq_iff _ _).mpr rfl
  · have h1 := hlhs 1 (by norm_num) (by norm_num [BASE])
    have h2 := hrhs 1 (by norm_num) (by norm_num [BASE])
    have heq : a.inc = a.add (bigint.ofInt64 1) := by
      have hinc : a.inc = a.plusWordEq 1 := rfl
      rw [hinc]
      exact toInt_inj _ _ h1.2 h2.2 (by rw [h1.1, h2.1])
    rw [heq]
    exact (beq_iff _ _).mpr rfl

/-- Witness for the amended C9 at `a = 7`, `b = 3`. -/
theorem c9_witness :
    ((bigint.mk false [7]).addWord 3).beq
        ((bigint.mk false [7]).add (bigint.ofInt64 3)) = true ∧
      (bigint.mk false [7]).inc.beq
        ((bigint.mk false [7]).add (bigint.ofInt64 1)) = true :=
  c9_amended ⟨false, [7]⟩ 3 (by decide) rfl (by norm_num) (by norm_num)

/-! ### Multiplication -/

theorem mulWordAux_val (b c : Int) (as : List Int) (hb : 0 ≤ b) (hc : 0 ≤ c)
    (ha : goodDigits as) : listVal (mulWordAux b c as) = c + b * listVal as := by
  induction as generalizing c with
  | nil =>
    by_cases h : c > 0 <;> simp [mulWordAux, h, listVal] <;> omega
  | cons a rest ih =>
    rcases goodDigits_cons.mp ha with ⟨hd, hrest⟩
    have hs0 : 0 ≤ a * b + c := by
      have := mul_nonneg hd.1 hb
      linarith
    obtain ⟨hm0, hm1, hq0⟩ := digit_bounds hs0
    have hid := tmod_tdiv_id (a * b + c)
    simp only [mulWordAux, listVal]
    rw [ih _ hq0 hrest]
    have hmod : (a * b + c).tmod BASE = a * b + c - BASE * ((a * b + c).tdiv BASE) := by
      linarith
    rw [hmod]
    ring

theorem mulWordAux_good (b c : Int) (as : List Int) (hb0 : 0 ≤ b) (hb9 : b < BASE)
    (hc0 : 0 ≤ c) (hc9 : c < BASE) (ha : goodDigits as) :
    goodDigits (mulWordAux b c as) := by
  induction as generalizing c with
  | nil =>
    by_cases h : c > 0
    · simp only [mulWordAux, if_pos h]
      exact goodDigits_cons.mpr ⟨⟨hc0, hc9⟩, fun d hd => absurd hd (List.not_mem_nil d)⟩
    · simp only [mulWordAux, if_neg h]
      exact fun d hd => absurd hd (List.not_mem_nil d)
  | cons a rest ih =>
    rcases goodDigits_cons.mp ha with ⟨hd, hrest⟩
    have hs0 : 0 ≤ a * b + c := by
      have := mul_nonneg hd.1 hb0
      linarith
    obtain ⟨hm0, hm1, hq0⟩ := digit_bounds hs0
    have hq9 : (a * b + c).tdiv BASE < BASE := by
      refine tdiv_lt hs0 ?_
      have hab : a * b ≤ (BASE - 1) * (BASE - 1) := by
        have h1 : a ≤ BASE - 1 := by linarith [hd.2]
        have h2 : b ≤ BASE - 1 := by linarith
        calc a * b ≤ a * (BASE - 1) := by
              exact mul_le_mul_of_nonneg_left h2 hd.1
          _ ≤ (BASE - 1) * (BASE - 1) := by
              exact mul_le_mul_of_nonneg_right h1 (by norm_num [BASE])
      simp only [BASE] at hab hc9 ⊢
      omega
    simp only [mulWordAux]
    exact goodDigits_cons.mpr ⟨⟨hm0, hm1⟩, ih _ hq0 hq9 hrest⟩

theorem mulWordEq_spec (a : bigint) (b : Int) (hg : goodDigits a.val)
    (hb0 : 0 ≤ b) (hb9 : b < BASE) :
    listVal (a.mulWordEq b).val = b * listVal a.val ∧
      goodDigits (a.mulWordEq b).val := by
  unfold bigint.mulWordEq
  split
  · rename_i hz
    have hav : a.val = [0] := is_zero_iff.mp hz
    rw [hav]
    simp [listVal, goodDigits, BASE]
  · split
    · rename_i hb
      subst hb
      constructor
      · show listVal [0] = 0 * listVal a.val
        simp [listVal]
      · intro d hd
        simp at hd
        simp [hd, BASE]
    · constructor
      · show listVal (mulWordAux b 0 a.val) = b * listVal a.val
        rw [mulWordAux_val b 0 a.val hb0 le_rfl hg]
        ring
      · exact mulWordAux_good b 0 a.val hb0 hb9 (by norm_num) (by norm_num [BASE]) hg

theorem valPlusList_length (av bv : List Int) (k : Nat) :
    av.length ≤ (valPlusList av bv k).length := by
  unfold valPlusList
  set av' := if av.length < bv.length + k
             then av ++ List.replicate (bv.length + k - av.length) 0
             else av with hav'
  have h1 : av.length ≤ av'.length := by
    rw [hav']
    split
    · simp only [List.length_append, List.length_replicate]
      omega
    · omega
  have h2 : (valPlusAux 0 (av'.drop k) bv).length = (av'.drop k).length ∨
      (valPlusAux 0 (av'.drop k) bv).length = (av'.drop k).length + 1 := by
    rcases valPlusAux_len 0 (av'.drop k) bv with h | ⟨h, -⟩
    · exact Or.inl h
    · exact Or.inr h
  rw [List.length_append, List.length_take, List.length_drop] at *
  rcases h2 with h | h <;> rw [h] <;> omega

theorem valMultAcc_len (a : bigint) (bv : List Int) :
    ∀ (i : Nat) (acc : List Int), 1 ≤ acc.length →
      1 ≤ (valMultAcc a i acc bv).length := by
  induction bv with
  | nil => intro i acc hacc; simpa [valMultAcc] using hacc
  | cons bi rest ih =>
    intro i acc hacc
    simp only [valMultAcc]
    refine ih (i + 1) _ ?_
    have := valPlusList_length acc (a.mulWord bi).val i
    omega

theorem valMultAcc_spec (a : bigint) (hg : goodDigits a.val) (hne : a.val ≠ []) :
    ∀ (bv : List Int), goodDigits bv → ∀ (i : Nat) (acc : List Int), goodDigits acc →
      goodDigits (valMultAcc a i acc bv) ∧
        listVal (valMultAcc a i acc bv)
          = listVal acc + BASE ^ i * listVal a.val * listVal bv := by
  intro bv
  induction bv with
  | nil =>
    intro _ i acc hacc
    simp only [valMultAcc, listVal]
    exact ⟨hacc, by ring⟩
  | cons bi rest ih =>
    intro hbv i acc hacc
    rcases goodDigits_cons.mp hbv with ⟨hdbi, hrest⟩
    have hmw : (a.mulWord bi).val = (a.mulWordEq bi).val := by
      unfold bigint.mulWord
      rw [zero_plusEq a hg hne]
    obtain ⟨hmv, hmg⟩ := mulWordEq_spec a bi hg hdbi.1 hdbi.2
    have hmg' : goodDigits (a.mulWord bi).val := by rw [hmw]; exact hmg
    have hacc' : goodDigits (valPlusList acc (a.mulWord bi).val i) :=
      valPlusList_good _ _ _ hacc hmg'
    obtain ⟨hg2, hv2⟩ := ih hrest (i + 1) _ hacc'
    refine ⟨hg2, ?_⟩
    simp only [valMultAcc] at hg2 hv2 ⊢
    rw [hv2, valPlusList_val, hmw, hmv]
    simp only [listVal, pow_succ]
    ring

theorem val_mult_spec (a b : bigint) (hg : goodDigits a.val) (hne : a.val ≠ [])
    (hbg : goodDigits b.val) :
    listVal (a.val_mult b).val = listVal a.val * listVal b.val ∧
      goodDigits (a.val_mult b).val ∧ canonicalDigits (a.val_mult b).val ∧
      (a.val_mult b).sign = a.sign := by
  have hg0 : goodDigits [(0:Int)] := by
    intro d hd
    simp at hd
    simp [hd, BASE]
  obtain ⟨hgacc, hvacc⟩ := valMultAcc_spec a hg hne b.val hbg 0 [0] hg0
  have hlen := valMultAcc_len a b.val 0 [0] (by simp)
  have hnen : valMultAcc a 0 [0] b.val ≠ [] := by
    intro hz
    rw [hz] at hlen
    simp at hlen
  obtain ⟨htv, htg, htc⟩ := trimZeros_spec _ hnen hgacc
  refine ⟨?_, htg, htc, rfl⟩
  show listVal (trimZeros (valMultAcc a 0 [0] b.val)) = _
  rw [htv, hvacc]
  simp [listVal]

theorem mulEq_spec (a b : bigint) (ha : a.WF) (hb : b.WF) :
    (a.mulEq b).toInt = a.toInt * b.toInt ∧ (a.mulEq b).WF ∧
      (a.mulEq b).sign
        = (if listVal (a.mulEq b).val = 0 then false else (a.sign != b.sign)) := by
  have hAn : 0 ≤ listVal a.val := listVal_nonneg ha.1
  have hBn : 0 ≤ listVal b.val := listVal_nonneg hb.1
  obtain ⟨hmv, hmg, hmc, hms⟩ :=
    val_mult_spec (bigint.mk (a.sign != b.sign) a.val) b ha.1 ha.2.1.1 hb.1
  simp only [bigint.mulEq]
  split
  · rename_i hz
    have hzv := is_zero_iff.mp hz
    have hval0 : listVal a.val * listVal b.val = 0 := by
      rw [← hmv]
      show listVal ((bigint.mk (a.sign != b.sign) a.val).val_mult b).val = 0
      rw [hzv]
      simp [listVal]
    refine ⟨?_, ?_, ?_⟩
    · show (bigint.mk false _).toInt = _
      rw [toInt_mk]
      simp only [Bool.false_eq_true, if_false]
      show listVal ((bigint.mk (a.sign != b.sign) a.val).val_mult b).val = _
      rw [hzv]
      unfold bigint.toInt
      have h0 : listVal a.val = 0 ∨ listVal b.val = 0 := by
        rcases mul_eq_zero.mp hval0 with h | h
        · exact Or.inl h
        · exact Or.inr h
      simp only [listVal]
      rcases h0 with h | h <;> rw [h] <;> split <;> split <;> ring
    · refine ⟨?_, ?_, fun _ => rfl⟩
      · show goodDigits ((bigint.mk (a.sign != b.sign) a.val).val_mult b).val
        exact hmg
      · show canonicalDigits ((bigint.mk (a.sign != b.sign) a.val).val_mult b).val
        exact hmc
    · show false = _
      rw [show (bigint.mk false ((bigint.mk (a.sign != b.sign) a.val).val_mult b).val).val
            = ((bigint.mk (a.sign != b.sign) a.val).val_mult b).val from rfl]
      rw [hzv]
      simp [listVal]
  · rename_i hz
    have hznv : ((bigint.mk (a.sign != b.sign) a.val).val_mult b).val ≠ [0] :=
      fun hc => hz (is_zero_iff.mpr hc)
    have hvnz : listVal a.val * listVal b.val ≠ 0 := by
      intro h0
      apply hznv
      apply (listVal_eq_zero_iff hmg hmc).mp
      rw [hmv]
      exact h0
    refine ⟨?_, ?_, ?_⟩
    · unfold bigint.toInt
      rw [show ((bigint.mk (a.sign != b.sign) a.val).val_mult b).sign
            = (a.sign != b.sign) from hms]
      rw [show listVal ((bigint.mk (a.sign != b.sign) a.val).val_mult b).val
            = listVal a.val * listVal b.val from hmv]
      cases hsa : a.sign <;> cases hsb : b.sign <;> simp <;> ring
    · refine ⟨hmg, hmc, fun h0 => ?_⟩
      exfalso
      rw [hmv] at h0
      exact hvnz h0
    · rw [show listVal ((bigint.mk (a.sign != b.sign) a.val).val_mult b).val
            = listVal a.val * listVal b.val from hmv]
      rw [if_neg hvnz]
      exact hms

/-- C2: For every pair of well-formed bigint values `a` and `b`,
`operator*` returns a bigint whose mathematical value is the integer
product of the operands' values; its sign flag equals
`a.sign XOR b.sign`, except that it is forced to `false` when the
resulting magnitude is zero; and the result is well-formed. -/
theorem c2_signed_multiplication (a b : bigint) (ha : a.WF) (hb : b.WF) :
    (a.mul b).toInt = a.toInt * b.toInt ∧
      (a.mul b).sign
        = (if listVal (a.mul b).val = 0 then false else (a.sign != b.sign)) ∧
      (a.mul b).WF := by
  have hcopy : a.mul b = a.mulEq b := by
    unfold bigint.mul
    rw [zero_plusEq a ha.1 ha.2.1.1]
  rw [hcopy]
  obtain ⟨h1, h2, h3⟩ := mulEq_spec a b ha hb
  exact ⟨h1, h3, h2⟩

/-- Witness for C2 at `a = 3`, `b = -4` (the product is `-12`). -/
theorem c2_witness :
    ((bigint.mk false [3]).mul ⟨true, [4]⟩).toInt =
        (bigint.mk false [3]).toInt * (bigint.mk true [4]).toInt ∧
      ((bigint.mk false [3]).mul ⟨true, [4]⟩).sign
        = (if listVal ((bigint.mk false [3]).mul ⟨true, [4]⟩).val = 0 then false
           else ((bigint.mk false [3]).sign != (bigint.mk true [4]).sign)) ∧
      ((bigint.mk false [3]).mul ⟨true, [4]⟩).WF :=
  c2_signed_multiplication ⟨false, [3]⟩ ⟨true, [4]⟩ (by decide) (by decide)

/-! ### Constructor edge cases -/

/-- C6 (code bug): `bigint(INT64_MIN)` sets `sign = true` but produces an
*empty* digit vector: `std::abs(INT64_MIN)` overflows (UB, wrapping to
`INT64_MIN` in practice), so the extraction loop `while (n > 0)` never
runs and no digit is pushed — contradicting the spec's "digits equal to
the decimal expansion of |n|, with at least one digit".  Consequently
the result is not well-formed. -/
theorem c6_int64min_bug :
    (bigint.ofInt64 (-(2 ^ 63))).val = [] ∧
      (bigint.ofInt64 (-(2 ^ 63))).sign = true ∧
      ¬ (bigint.ofInt64 (-(2 ^ 63))).WF := by
  have h1 : (-(2:Int) ^ 63) = I64_MIN := by norm_num [I64_MIN]
  have hval : (bigint.ofInt64 (-(2 ^ 63))).val = [] := by
    unfold bigint.ofInt64 i64_abs
    show (if (-(2:Int) ^ 63) = 0 then [0] else []) ++
        decChunks (if (-(2:Int) ^ 63) = I64_MIN then (-(2:Int) ^ 63)
                   else ((-(2:Int) ^ 63).natAbs : Int)) = []
    rw [if_neg (by norm_num), if_pos h1, decChunks_nonpos (by norm_num)]
    rfl
  refine ⟨hval, ?_, ?_⟩
  · show decide ((-(2:Int) ^ 63) < 0) = true
    norm_num
  · intro hwf
    exact hwf.2.1.1 hval

/-- C10: the string constructor accepts the lone token `"-"` without
error and yields a non-canonical negative zero (`sign = true`,
`val = {0}`); in particular `bigint("-") == bigint()` is false. -/
theorem c10_lone_minus :
    bigint.ofString ['-'] 10 = some ⟨true, [0]⟩ ∧
      (bigint.mk true [0]).beq bigint.zero = false := by
  constructor <;> rfl

/-- C4 (code bug): the validation test is `toupper(ch) - '0' >= base`,
so the letter `'A'` is treated as 17 rather than as the digit value 10
that `std::from_chars` assigns; `bigint("A", 16)` therefore throws
`std::invalid_argument` even though `'A'` is a valid base-16 digit. -/
theorem c4_base16_letter_bug :
    bigint.ofString ['A'] 16 = none ∧ fromCharsVal 'A' = 10 := by
  constructor <;> rfl

/-- C3 (code bug): `bigint("90", 18)` passes validation, but the
conversion loop multiplies by 18 through the single-WORD `operator*=`,
which pushes the final carry 16 as one vector entry; the resulting digit
vector `{2, 16}` contains an entry `16 ≥ BASE = 10`. -/
theorem c3_digit_range_bug :
    bigint.ofString ['9', '0'] 18 = some ⟨false, [2, 16]⟩ ∧
      ¬ goodDigits [2, 16] := by
  constructor
  · rfl
  · decide

/-- C5 (code bug): the zero short-circuit of the string constructor only
catches the single-character token `"0"` (after sign stripping), so
`bigint("-00")` returns a negative zero (`sign = true`, `val = {0}`),
violating the canonical-form invariant that zero always has
`sign = false`. -/
theorem c5_negative_zero_bug :
    bigint.ofString ['-', '0', '0'] 10 = some ⟨true, [0]⟩ ∧
      ¬ (bigint.mk true [0]).WF := by
  constructor
  · rfl
  · decide

/-! ### Decimal round-trip (C7) -/

theorem isDigit_toNat {c : Char} (h : c.isDigit = true) :
    48 ≤ c.toNat ∧ c.toNat ≤ 57 := by
  simp only [Char.isDigit, Bool.and_eq_true, decide_eq_true_eq] at h
  obtain ⟨h1, h2⟩ := h
  exact ⟨UInt32.le_toNat_of_le (by norm_num [UInt32.size]) h1,
    UInt32.toNat_le_of_le (by norm_num [UInt32.size]) h2⟩

theorem isDigit_isAlphanum {c : Char} (h : c.isDigit = true) :
    c.isAlphanum = true := by
  simp [Char.isAlphanum, h]

theorem toUpper_digit {c : Char} (h : c.isDigit = true) : c.toUpper = c := by
  obtain ⟨h1, h2⟩ := isDigit_toNat h
  unfold Char.toUpper
  rw [if_neg]
  intro hc
  omega

theorem zero_char_toNat : ('0').toNat = 48 := rfl

theorem fromCharsVal_digit {c : Char} (h : c.isDigit = true) :
    fromCharsVal c = (c.toNat : Int) - 48 ∧
      0 ≤ fromCharsVal c ∧ fromCharsVal c < BASE := by
  obtain ⟨h1, h2⟩ := isDigit_toNat h
  unfold fromCharsVal
  rw [if_pos h]
  refine ⟨rfl, ?_, ?_⟩ <;> simp only [zero_char_toNat, BASE] <;> omega

theorem fromCharsVal_ne_zero {c : Char} (h : c.isDigit = true) (hc : c ≠ '0') :
    fromCharsVal c ≠ 0 := by
  obtain ⟨hv, h0, h9⟩ := fromCharsVal_digit h
  rw [hv]
  intro h48
  apply hc
  have htn : c.toNat = 48 := by omega
  have := Char.ofNat_toNat c
  rw [htn] at this
  rw [← this]

theorem char_roundtrip {c : Char} (h : c.isDigit = true) :
    Char.ofNat (48 + (fromCharsVal c).toNat) = c := by
  obtain ⟨h1, h2⟩ := isDigit_toNat h
  obtain ⟨hv, -, -⟩ := fromCharsVal_digit h
  rw [hv]
  have hsub : ((c.toNat : Int) - 48).toNat = c.toNat - 48 := by omega
  rw [hsub]
  have hadd : 48 + (c.toNat - 48) = c.toNat := by omega
  rw [hadd, Char.ofNat_toNat]

theorem scanChars_digits (ds : List Char) (h : ∀ c ∈ ds, c.isDigit = true) :
    ∀ (flg sgn : Bool), scanChars 10 ds flg sgn = some sgn := by
  induction ds with
  | nil => intro flg sgn; rfl
  | cons c rest ih =>
    intro flg sgn
    have hc : c.isDigit = true := h c (List.mem_cons_self c rest)
    obtain ⟨h1, h2⟩ := isDigit_toNat hc
    have hcond : ¬ ((10:Int) ≤ (c.toUpper.toNat : Int) - (('0').toNat : Int)) := by
      rw [toUpper_digit hc]
      simp only [zero_char_toNat]
      push_cast
      omega
    simp only [scanChars, isDigit_isAlphanum hc, if_true, if_neg hcond]
    exact ih (fun d hd => h d (List.mem_cons_of_mem c hd)) true sgn

theorem mulWordAux_ten (v : List Int) (hv : goodDigits v) (hne : v ≠ [])
    (hlast : v.getLast? ≠ some 0) :
    ∀ c, 0 ≤ c → c < BASE → mulWordAux BASE c v = c :: v := by
  induction v with
  | nil => exact absurd rfl hne
  | cons a rest ih =>
    intro c hc0 hc9
    rcases goodDigits_cons.mp hv with ⟨hda, hrest⟩
    have hB : (0:Int) < BASE := by norm_num [BASE]
    have htm : (a * BASE + c).tmod BASE = c := by
      have h0 : 0 ≤ a * BASE + c := by nlinarith [hda.1]
      rw [Int.tmod_eq_emod h0 (le_of_lt hB)]
      have h1 : (a * BASE + c) % BASE = c % BASE := by
        have := Int.add_mul_emod_self_left (a := c) (b := BASE) (c := a)
        rw [← this]
        ring_nf
      rw [h1, Int.emod_eq_of_lt hc0 hc9]
    have htd : (a * BASE + c).tdiv BASE = a := by
      have h0 : 0 ≤ a * BASE + c := by nlinarith [hda.1]
      rw [Int.tdiv_eq_ediv h0 (le_of_lt hB)]
      rw [show a * BASE + c = c + a * BASE by ring]
      rw [Int.add_mul_ediv_right c a (ne_of_gt hB)]
      rw [Int.ediv_eq_zero_of_lt hc0 hc9]
      ring
    simp only [mulWordAux, htm, htd]
    cases rest with
    | nil =>
      have ha0 : a ≠ 0 := by
        intro h0
        apply hlast
        simp [h0]
      have hapos : a > 0 := lt_of_le_of_ne hda.1 (Ne.symm ha0)
      simp only [mulWordAux, if_pos hapos]
    | cons r rs =>
      have hlast' : (r :: rs).getLast? ≠ some 0 := by
        rwa [List.getLast?_cons_cons] at hlast
      rw [ih hrest (by simp) hlast' a hda.1 hda.2]

theorem addWordAux_digit_cons (d : Int) (v : List Int) (h0 : 0 ≤ d)
    (h9 : d < BASE) : addWordAux d (0 :: v) = d :: v := by
  have htm : d.tmod BASE = d := by
    rw [Int.tmod_eq_emod h0 (by norm_num [BASE])]
    exact Int.emod_eq_of_lt h0 h9
  have htd : d.tdiv BASE = 0 := Int.tdiv_eq_zero_of_lt h0 h9
  simp [addWordAux, htm, htd]

theorem convChars_start (sgn : Bool) (d : Char) (rest : List Char)
    (hd : d.isDigit = true) :
    convChars 10 ⟨sgn, [0]⟩ (d :: rest)
      = convChars 10 ⟨sgn, [fromCharsVal d]⟩ rest := by
  obtain ⟨-, hd0, hd9⟩ := fromCharsVal_digit hd
  simp only [convChars]
  congr 1
  have h1 : (bigint.mk sgn [0]).mulWordEq 10 = bigint.mk sgn [0] := by
    unfold bigint.mulWordEq
    rw [if_pos (show (bigint.mk sgn [0]).is_zero = true from rfl)]
  rw [h1]
  unfold bigint.plusWordEq
  show bigint.mk sgn (addWordAux (fromCharsVal d) [0]) = _
  rw [show ([(0:Int)]) = 0 :: ([] : List Int) from rfl,
    addWordAux_digit_cons _ _ hd0 (by simpa [BASE] using hd9)]

theorem convChars_digits (sgn : Bool) (ds : List Char) :
    ∀ (v : List Int), (∀ c ∈ ds, c.isDigit = true) → goodDigits v →
      v ≠ [] → v.getLast? ≠ some 0 →
      convChars 10 ⟨sgn, v⟩ ds = ⟨sgn, (ds.map fromCharsVal).reverse ++ v⟩ := by
  induction ds with
  | nil => intro v _ _ _ _; simp [convChars]
  | cons c rest ih =>
    intro v hdig hg hne hlast
    have hcd : c.isDigit = true := hdig c (List.mem_cons_self c rest)
    obtain ⟨-, hv0, hv9⟩ := fromCharsVal_digit hcd
    have hnz : ¬ (bigint.mk sgn v).is_zero = true := by
      intro hiz
      have := is_zero_iff.mp hiz
      apply hlast
      show v.getLast? = some 0
      rw [show (bigint.mk sgn v).val = v from rfl] at this
      rw [this]
      rfl
    simp only [convChars]
    have h1 : (bigint.mk sgn v).mulWordEq 10 = bigint.mk sgn (0 :: v) := by
      unfold bigint.mulWordEq
      rw [if_neg hnz, if_neg (by norm_num)]
      show bigint.mk sgn (mulWordAux 10 0 v) = _
      rw [show (10:Int) = BASE from rfl,
        mulWordAux_ten v hg hne hlast 0 le_rfl (by norm_num [BASE])]
    rw [h1]
    have h2 : (bigint.mk sgn (0 :: v)).plusWordEq (fromCharsVal c)
        = bigint.mk sgn (fromCharsVal c :: v) := by
      unfold bigint.plusWordEq
      show bigint.mk sgn (addWordAux (fromCharsVal c) (0 :: v)) = _
      rw [addWordAux_digit_cons _ _ hv0 hv9]
    rw [h2]
    rw [ih (fromCharsVal c :: v)
      (fun x hx => hdig x (List.mem_cons_of_mem c hx))
      (goodDigits_cons.mpr ⟨⟨hv0, hv9⟩, hg⟩)
      (by simp)
      (by
        cases v with
        | nil => exact absurd rfl hne
        | cons y ys =>
          rw [List.getLast?_cons_cons]
          exact hlast)]
    simp [List.append_assoc]

theorem natDecChars_small {n : Nat} (h : n < 10) :
    natDecChars n = [Char.ofNat (48 + n)] := by
  unfold natDecChars
  rw [dif_pos h]

theorem intDecChars_digit {d : Int} (h0 : 0 ≤ d) (h9 : d < 10) :
    intDecChars d = [Char.ofNat (48 + d.toNat)] := by
  unfold intDecChars
  rw [if_neg (by omega)]
  exact natDecChars_small (by omega)

theorem flatMap_digits (l : List Int) (hg : goodDigits l) :
    l.flatMap intDecChars = l.map (fun d => Char.ofNat (48 + d.toNat)) := by
  induction l with
  | nil => rfl
  | cons d rest ih =>
    rcases goodDigits_cons.mp hg with ⟨hd, hrest⟩
    rw [List.flatMap_cons, List.map_cons,
      intDecChars_digit hd.1 (by simpa [BASE] using hd.2), ih hrest]
    rfl

theorem map_fromCharsVal_roundtrip (ds : List Char)
    (h : ∀ c ∈ ds, c.isDigit = true) :
    ds.map (fun c => Char.ofNat (48 + (fromCharsVal c).toNat)) = ds := by
  induction ds with
  | nil => rfl
  | cons c rest ih =>
    rw [List.map_cons, char_roundtrip (h c (List.mem_cons_self c rest)),
      ih (fun x hx => h x (List.mem_cons_of_mem c hx))]

theorem render_conv (sgn : Bool) (ds : List Char)
    (h : ∀ c ∈ ds, c.isDigit = true) :
    bigint.render ⟨sgn, (ds.map fromCharsVal).reverse⟩
      = (if sgn then ['-'] else []) ++ ds := by
  unfold bigint.render
  congr 1
  show ((ds.map fromCharsVal).reverse).reverse.flatMap intDecChars = ds
  rw [List.reverse_reverse]
  rw [flatMap_digits _ (by
    intro d hd
    obtain ⟨c, hc, rfl⟩ := List.mem_map.mp hd
    obtain ⟨-, h0, h9⟩ := fromCharsVal_digit (h c hc)
    exact ⟨h0, h9⟩)]
  rw [List.map_map]
  have hcomp : ((fun d : Int => Char.ofNat (48 + d.toNat)) ∘ fromCharsVal)
      = fun c => Char.ofNat (48 + (fromCharsVal c).toNat) := rfl
  rw [hcomp]
  exact map_fromCharsVal_roundtrip ds h

theorem render_zero : bigint.render ⟨false, [0]⟩ = ['0'] := by
  unfold bigint.render
  rw [show ([(0:Int)]).reverse = [0] from rfl,
    flatMap_digits [0] (by intro d hd; simp at hd; simp [hd, BASE])]
  rfl

/-- A base-10 text token matching `-?[0-9]+` with no leading zero except
for the single-digit token `0` itself. -/
def decTok (s : List Char) : Prop :=
  if s.head? = some '-' then
    s.tail ≠ [] ∧ (∀ c ∈ s.tail, c.isDigit = true) ∧
      (s.tail.head? = some '0' → s.tail = ['0'])
  else
    s ≠ [] ∧ (∀ c ∈ s, c.isDigit = true) ∧ (s.head? = some '0' → s = ['0'])

instance (s : List Char) : Decidable (decTok s) := by
  unfold decTok
  infer_instance

/-- C7: For every base-10 token `s` matching `-?[0-9]+` with no leading
zero except the single-digit token `"0"`, streaming `bigint(s)` to an
output stream emits exactly the characters of `s`, except that the
token `"-0"` renders as `"0"`. -/
theorem c7_decimal_roundtrip (s : List Char) (h : decTok s) :
    Option.map bigint.render (bigint.ofString s 10)
      = some (if s = ['-', '0'] then ['0'] else s) := by
  unfold decTok at h
  by_cases hm : s.head? = some '-'
  · rw [if_pos hm] at h
    obtain ⟨hne, hdig, hlead⟩ := h
    cases s with
    | nil => simp at hm
    | cons c0 ds =>
      have hc0 : c0 = '-' := by simpa using hm
      subst hc0
      simp only [List.tail_cons] at hne hdig hlead
      have hscan : scanChars 10 ('-' :: ds) false false = some true := by
        show scanChars 10 ds false true = some true
        exact scanChars_digits ds hdig false true
      have hof : bigint.ofString ('-' :: ds) 10
          = (if ds = ['0'] then some ⟨false, [0]⟩
             else some (convChars 10 ⟨true, [0]⟩ ds)) := by
        unfold bigint.ofString
        rw [hscan]
        rfl
      rw [hof]
      by_cases hds : ds = ['0']
      · subst hds
        rw [if_pos rfl]
        simp only [Option.map_some']
        rw [render_zero]
        simp
      · rw [if_neg hds]
        cases ds with
        | nil => exact absurd rfl hne
        | cons d1 rest =>
          have hd1d : d1.isDigit = true := hdig d1 (List.mem_cons_self d1 rest)
          have hd1 : d1 ≠ '0' := by
            intro he
            exact hds (hlead (by rw [he]; rfl))
          rw [convChars_start true d1 rest hd1d]
          obtain ⟨-, hv0, hv9⟩ := fromCharsVal_digit hd1d
          rw [convChars_digits true rest [fromCharsVal d1]
            (fun x hx => hdig x (List.mem_cons_of_mem d1 hx))
            (by
              intro d hd
              simp at hd
              subst hd
              exact ⟨hv0, hv9⟩)
            (by simp)
            (by
              simp only [List.getLast?_singleton]
              intro hc
              exact fromCharsVal_ne_zero hd1d hd1 (by simpa using hc))]
          rw [show (rest.map fromCharsVal).reverse ++ [fromCharsVal d1]
                = ((d1 :: rest).map fromCharsVal).reverse by
              rw [List.map_cons, List.reverse_cons]]
          simp only [Option.map_some']
          rw [render_conv true (d1 :: rest) hdig]
          have hne2 : ('-' :: d1 :: rest) ≠ ['-', '0'] := by
            intro he
            apply hds
            simpa using congrArg List.tail he
          rw [if_neg hne2]
          rfl
  · rw [if_neg hm] at h
    obtain ⟨hne, hdig, hlead⟩ := h
    have hscan : scanChars 10 s false false = some false :=
      scanChars_digits s hdig false false
    have hof : bigint.ofString s 10
        = (if s = ['0'] then some ⟨false, [0]⟩
           else some (convChars 10 ⟨false, [0]⟩ s)) := by
      unfold bigint.ofString
      rw [hscan]
      rfl
    rw [hof]
    have hsne : s ≠ ['-', '0'] := by
      intro he
      rw [he] at hm
      exact hm rfl
    by_cases hs0 : s = ['0']
    · subst hs0
      rw [if_pos rfl]
      simp only [Option.map_some']
      rw [render_zero, if_neg hsne]
    · rw [if_neg hs0]
      cases s with
      | nil => exact absurd rfl hne
      | cons d1 rest =>
        have hd1d : d1.isDigit = true := hdig d1 (List.mem_cons_self d1 rest)
        have hd1 : d1 ≠ '0' := by
          intro he
          exact hs0 (hlead (by rw [he]; rfl))
        rw [convChars_start false d1 rest hd1d]
        obtain ⟨-, hv0, hv9⟩ := fromCharsVal_digit hd1d
        rw [convChars_digits false rest [fromCharsVal d1]
          (fun x hx => hdig x (List.mem_cons_of_mem d1 hx))
          (by
            intro d hd
            simp at hd
            subst hd
            exact ⟨hv0, hv9⟩)
          (by simp)
          (by
            simp only [List.getLast?_singleton]
            intro hc
            exact fromCharsVal_ne_zero hd1d hd1 (by simpa using hc))]
        rw [show (rest.map fromCharsVal).reverse ++ [fromCharsVal d1]
              = ((d1 :: rest).map fromCharsVal).reverse by
            rw [List.map_cons, List.reverse_cons]]
        simp only [Option.map_some']
        rw [render_conv false (d1 :: rest) hdig]
        rw [if_neg hsne]
        rfl

/-- Witness for C7 at the token `"-12"`. -/
theorem c7_witness :
    Option.map bigint.render (bigint.ofString ['-', '1', '2'] 10)
      = some (if ['-', '1', '2'] = ['-', '0'] then ['0'] else ['-', '1', '2']) :=
  c7_decimal_roundtrip ['-', '1', '2'] (by decide)

end BigintSpec
